import Mathlib

/-!
# Verification of the artie local file registry

Shallow embedding of `artie/registry/fileRegistry.go`: the in-memory index
(`FileRegistry`), its query functions (`findRepository`, `GetArtefact`) and its
mutating operations (`Add`, `Tag`, `unTag`, `unTagAll`, `Remove`), together
with the listing helpers (`List`, `ListQ`, `toElapsedLabel`, `plural`).

Go pointer mutation is embedded as index-based functional update: the Go
functions that return `*artefact` are embedded as functions returning the
position `(repository index, artefact index)` of that artefact, and mutation
through the pointer becomes an update at that position.  `core.RaiseErr` and
`log.Fatal` abort the process, embedded as `Except.error`.  Persistence
(`save`) and backing-file deletion (`removeFiles`) are embedded by carrying,
next to the in-memory registry, the last persisted registry document and the
list of deleted backing-file base names.  File moves (`RenameFile`) and the
actual I/O of `save`/`load` are outside the model.
-/

/-- Artefact record (`artefact` in fileRegistry.go); the Go field `Type` is
named `typ` because `Type` is reserved in Lean. -/
structure artefact where
  Id : String
  typ : String
  FileRef : String
  Tags : List String
  Size : String
  Created : String
deriving DecidableEq, Inhabited

/-- Repository record (`repository` in fileRegistry.go). -/
structure repository where
  Repository : String
  Artefacts : List artefact
deriving DecidableEq, Inhabited

/-- The local registry index (`FileRegistry` in fileRegistry.go). -/
structure FileRegistry where
  Repositories : List repository
deriving DecidableEq, Inhabited

/-- Modelled from the spec: the Name Resolver contract (`core.ArtieName`, not
under src/) yields a reference's bare name fragment (`Name`), its tag (`Tag`)
and the rendered canonical fully-qualified repository name
(`FullyQualifiedName`, a method in Go, carried here as the resolver's
output). -/
structure ArtieName where
  Name : String
  Tag : String
  FullyQualifiedName : String
deriving DecidableEq, Inhabited

/-- Modelled from the spec: `core.ArtieName.IsInTheSameRepositoryAs` (not under
src/) — the same-repository comparison between two references, i.e. equality
of their canonical fully-qualified repository names. -/
def ArtieName.IsInTheSameRepositoryAs (a b : ArtieName) : Bool :=
  a.FullyQualifiedName == b.FullyQualifiedName

/-- Modelled from the spec: the Seal Provider contract (`core.Seal`, not under
src/) — a content-derived identifier (what `core.ArtefactId` returns for the
seal), a type label, a size label and a creation-time label. -/
structure Seal where
  artefactId : String
  typ : String
  size : String
  time : String
deriving DecidableEq, Inhabited

instance {ε α : Type} [DecidableEq ε] [DecidableEq α] : DecidableEq (Except ε α) := fun a b =>
  match a, b with
  | .error e, .error f =>
    if h : e = f then isTrue (by rw [h]) else isFalse (fun hh => h (Except.error.inj hh))
  | .error _, .ok _ => isFalse (fun hh => Except.noConfusion hh)
  | .ok _, .error _ => isFalse (fun hh => Except.noConfusion hh)
  | .ok x, .ok y =>
    if h : x = y then isTrue (by rw [h]) else isFalse (fun hh => h (Except.ok.inj hh))

/-- `l₁` occurs as a contiguous run at the front of `l₂` (Go substring search
helper). -/
def listStartsWith : List Char → List Char → Bool
  | [], _ => true
  | _ :: _, [] => false
  | a :: as, b :: bs => a == b && listStartsWith as bs

/-- Auxiliary scan for `strContains`. -/
def strContainsAux (pat : List Char) : List Char → Bool
  | [] => pat.isEmpty
  | c :: rest => listStartsWith pat (c :: rest) || strContainsAux pat rest

/-- Go `strings.Contains s sub` (on the ASCII identifiers the registry
stores, Go's byte-level search and this character-level search agree). -/
def strContains (s subStr : String) : Bool :=
  strContainsAux subStr.toList s.toList

/-- Modelled from the spec: `core.RemoveElement` (not under src/) removes a
tag string from a tag list (§4 Untag).  The spec leaves its behaviour on
duplicate tag strings unspecified and assumes every tag list is deduplicated
by construction; removing every occurrence agrees with that assumption. -/
def RemoveElement (a : List String) (value : String) : List String :=
  a.filter (fun t => t != value)

/-- `artefact.HasTag` in fileRegistry.go. -/
def artefact.HasTag (a : artefact) (tag : String) : Bool :=
  a.Tags.contains tag

/-- Update the `i`-th element of a list in place (embedding of Go slice
element assignment `a[i] = f a[i]`; out-of-range indices never occur at use
sites). -/
def updAt {α : Type} [Inhabited α] (l : List α) (i : Nat) (f : α → α) : List α :=
  l.set i (f (l.getD i default))

/-- The artefact at position `loc = (repository index, artefact index)` —
dereferencing an embedded `*artefact`. -/
def artefactAt (r : FileRegistry) (loc : Nat × Nat) : artefact :=
  (r.Repositories.getD loc.1 default).Artefacts.getD loc.2 default

/-- Replace the tag list of the artefact at `loc` (mutation through an
embedded `*artefact`). -/
def updateTagsAt (r : FileRegistry) (loc : Nat × Nat) (f : List String → List String) :
    FileRegistry :=
  ⟨updAt r.Repositories loc.1 (fun repo =>
    ⟨repo.Repository, updAt repo.Artefacts loc.2 (fun a => { a with Tags := f a.Tags })⟩)⟩

/-- First artefact index whose tag list contains `tag` (the inner search of
`GetArtefact`'s by-name branch). -/
def findTagIdx (arts : List artefact) (tag : String) : Option Nat :=
  arts.findIdx? (fun a => a.HasTag tag)

/-- Index accumulation of `GetArtefact`'s fallback scan over one repository,
starting at artefact index `j`. -/
def matchIdxsFrom (frag : String) : Nat → List artefact → List Nat
  | _, [] => []
  | j, a :: rest =>
    if strContains a.Id frag then j :: matchIdxsFrom frag (j + 1) rest
    else matchIdxsFrom frag (j + 1) rest

/-- Indices of the artefacts of one repository whose `Id` contains `frag` as a
substring, in order (the inner accumulation of `GetArtefact`'s fallback). -/
def matchIdxs (arts : List artefact) (frag : String) : List Nat :=
  matchIdxsFrom frag 0 arts

/-- The loop of `FileRegistry.GetArtefact`: walk the repositories carrying the
absolute repository index `ix` and the accumulated substring matches `found`;
a repository whose name equals the reference's fully-qualified name is
searched by tag (returning at a hit, breaking out of the loop otherwise), any
other repository contributes its `Id`-substring matches, and more than one
accumulated match raises the ambiguity error. -/
def getLocLoop (name : ArtieName) : Nat → List (Nat × Nat) → List repository →
    Except String (Option (Nat × Nat))
  | _, found, [] => Except.ok found.head?
  | ix, found, repo :: rest =>
    if repo.Repository == name.FullyQualifiedName then
      match findTagIdx repo.Artefacts name.Tag with
      | some j => Except.ok (some (ix, j))
      | none => Except.ok found.head?
    else
      let found := found ++ (matchIdxs repo.Artefacts name.Name).map (fun j => (ix, j))
      if found.length > 1 then
        Except.error ("artefact Id hint provided is not sufficiently long to pin point the artifact, "
          ++ toString found.length ++ " were found")
      else getLocLoop name (ix + 1) found rest

/-- `FileRegistry.GetArtefact`, returning the position of the returned
`*artefact` (`Except.ok none` embeds a `nil` result, `Except.error` the
`core.RaiseErr` ambiguity abort). -/
def getArtefactLoc (r : FileRegistry) (name : ArtieName) : Except String (Option (Nat × Nat)) :=
  getLocLoop name 0 [] r.Repositories

/-- `FileRegistry.findRepository`: first the exact fully-qualified-name scan,
then the scan for any repository holding an artefact whose `Id` contains the
bare name fragment; the result is the index of the returned `*repository`. -/
def findRepositoryIdx (r : FileRegistry) (name : ArtieName) : Option Nat :=
  match r.Repositories.findIdx? (fun repo => repo.Repository == name.FullyQualifiedName) with
  | some i => some i
  | none =>
    r.Repositories.findIdx? (fun repo =>
      repo.Artefacts.any (fun a => strContains a.Id name.Name))

/-- Registry state carried through the embedded operations: the in-memory
index (`reg`), the registry document as last persisted by `save` (`disk`) and
the base names whose backing blob/seal file pairs `removeFiles` has deleted
(`deleted`). -/
structure RegState where
  reg : FileRegistry
  disk : FileRegistry
  deleted : List String
deriving DecidableEq, Inhabited

/-- `FileRegistry.save`: persist the full in-memory state. -/
def save (s : RegState) : RegState :=
  { s with disk := s.reg }

/-- `FileRegistry.removeFiles`: delete the blob and seal files named by the
artefact's backing-file base name. -/
def removeFiles (s : RegState) (a : artefact) : RegState :=
  { s with deleted := s.deleted ++ [a.FileRef] }

/-- A fresh registry (`NewFileRegistry` over an empty registry directory). -/
def initState : RegState :=
  { reg := ⟨[]⟩, disk := ⟨[]⟩, deleted := [] }

/-- `FileRegistry.unTag`: resolve the artefact like `GetArtefact` and strip
one tag from its tag list (no persistence here; callers persist). -/
def unTagOp (s : RegState) (name : ArtieName) (tag : String) : Except String RegState :=
  match getArtefactLoc s.reg name with
  | Except.error e => Except.error e
  | Except.ok none => Except.ok s
  | Except.ok (some loc) =>
    Except.ok { s with reg := updateTagsAt s.reg loc (fun ts => RemoveElement ts tag) }

/-- Go `filepath.Base` for the plain file names the registry receives: the
final slash-separated component. -/
def filepathBase (s : String) : String :=
  ⟨(s.toList.reverse.takeWhile (fun c => c != '/')).reverse⟩

/-- Go `path.Ext`: the suffix of the base name starting at its final dot,
empty when there is no dot. -/
def pathExt (s : String) : String :=
  let revBase := s.toList.reverse.takeWhile (fun c => c != '/')
  if revBase.contains '.' then ⟨((revBase.takeWhile (fun c => c != '.')) ++ ['.']).reverse⟩
  else ""

/-- Go `strings.TrimSuffix`. -/
def trimSuffix (s suffix : String) : String :=
  if suffix.toList.isSuffixOf s.toList then ⟨s.toList.take (s.length - suffix.length)⟩
  else s

/-- `FileRegistry.Add`: validate the `.zip` extension, (move the blob and seal
files — outside the model), steal the target tag from its current holder via
`unTag`, find or create the repository, append the new artefact record built
from the seal and persist. -/
def AddOp (s : RegState) (filename : String) (name : ArtieName) (sealArg : Seal) :
    Except String RegState :=
  let basename := filepathBase filename
  let basenameExt := pathExt basename
  let basenameNoExt := trimSuffix basename (pathExt basename)
  if basenameExt != ".zip" then
    Except.error ("the localRepo can only accept zip files, the extension provided was "
      ++ basenameExt)
  else
    match unTagOp s name name.Tag with
    | Except.error e => Except.error e
    | Except.ok s1 =>
      let repoIx :=
        match findRepositoryIdx s1.reg name with
        | some i => i
        | none => s1.reg.Repositories.length
      let reg1 : FileRegistry :=
        match findRepositoryIdx s1.reg name with
        | some _ => s1.reg
        | none => ⟨s1.reg.Repositories ++ [⟨name.FullyQualifiedName, []⟩]⟩
      let newArt : artefact :=
        ⟨sealArg.artefactId, sealArg.typ, basenameNoExt, [name.Tag], sealArg.size, sealArg.time⟩
      let reg2 : FileRegistry :=
        ⟨updAt reg1.Repositories repoIx
          (fun repo => ⟨repo.Repository, repo.Artefacts ++ [newArt]⟩)⟩
      Except.ok (save { s1 with reg := reg2 })

/-- `FileRegistry.Tag` with all its branches; the only branch that mutates
without persisting is the existing-target-artefact branch, transcribed
faithfully: its loop ranges over a snapshot of the target artefact's tags,
appending the target tag once for every snapshot tag different from it, and
falls through without `save`. -/
def TagOp (s : RegState) (sourceName targetName : ArtieName) : Except String RegState :=
  match getArtefactLoc s.reg sourceName with
  | Except.error e => Except.error e
  | Except.ok none => Except.error "source artefact does not exit"
  | Except.ok (some srcLoc) =>
    let sourceArtie := artefactAt s.reg srcLoc
    if targetName.IsInTheSameRepositoryAs sourceName then
      if !(sourceArtie.HasTag targetName.Tag) then
        Except.ok (save { s with
          reg := updateTagsAt s.reg srcLoc (fun ts => ts ++ [targetName.Tag]) })
      else
        Except.ok s
    else
      match findRepositoryIdx s.reg targetName with
      | none =>
        Except.ok (save { s with reg := ⟨s.reg.Repositories ++
          [⟨targetName.FullyQualifiedName,
            [⟨sourceArtie.Id, sourceArtie.typ, sourceArtie.FileRef, [targetName.Tag],
              sourceArtie.Size, sourceArtie.Created⟩]⟩]⟩ })
      | some tIx =>
        match getArtefactLoc s.reg targetName with
        | Except.error e => Except.error e
        | Except.ok (some tgtLoc) =>
          let targetArtie := artefactAt s.reg tgtLoc
          let newTags := targetArtie.Tags.foldl
            (fun acc tg => if tg == targetName.Tag then acc else acc ++ [targetName.Tag])
            targetArtie.Tags
          Except.ok { s with reg := updateTagsAt s.reg tgtLoc (fun _ => newTags) }
        | Except.ok none =>
          match (s.reg.Repositories.getD tIx default).Artefacts.findIdx?
              (fun a => a.Id == sourceArtie.Id) with
          | some j =>
            Except.ok (save { s with
              reg := updateTagsAt s.reg (tIx, j) (fun ts => ts ++ [targetName.Tag]) })
          | none =>
            Except.ok (save { s with reg := ⟨updAt s.reg.Repositories tIx
              (fun repo => ⟨repo.Repository, repo.Artefacts ++
                [⟨sourceArtie.Id, sourceArtie.typ, sourceArtie.FileRef, [targetName.Tag],
                  sourceArtie.Size, sourceArtie.Created⟩]⟩)⟩ })

/-- `FileRegistry.unTagAll`: clear every tag of every artefact of the first
repository matching the fully-qualified name (each artefact's loop ranges
over a snapshot of its tags, removing each), then persist unconditionally. -/
def unTagAllOp (s : RegState) (name : ArtieName) : RegState :=
  let reg1 :=
    match s.reg.Repositories.findIdx?
        (fun repo => repo.Repository == name.FullyQualifiedName) with
    | some i => (⟨updAt s.reg.Repositories i (fun repo => ⟨repo.Repository,
        repo.Artefacts.map (fun a =>
          { a with Tags := a.Tags.foldl (fun ts t => RemoveElement ts t) a.Tags })⟩)⟩ :
          FileRegistry)
    | none => s.reg
  save { s with reg := reg1 }

/-- `FileRegistry.removeArtefactById`: find the first artefact whose `Id`
contains `id`, copy the last element into its slot and truncate; the list is
returned unchanged when nothing matches. -/
def removeArtefactById (a : List artefact) (id : String) : List artefact :=
  match a.findIdx? (fun x => strContains x.Id id) with
  | none => a
  | some i => (a.set i (a.getD (a.length - 1) default)).dropLast

/-- `FileRegistry.removeRepoByName`: same last-element-swap removal for the
first repository whose name equals the reference's fully-qualified name. -/
def removeRepoByName (a : List repository) (name : ArtieName) : List repository :=
  match a.findIdx? (fun repo => repo.Repository == name.FullyQualifiedName) with
  | none => a
  | some i => (a.set i (a.getD (a.length - 1) default)).dropLast

/-- One iteration of `FileRegistry.Remove`: resolve the artefact (`nil` ⇒
report and continue), strip the named tag; if that shrank the tag list to
zero, drop the repository record and delete the backing files only when no
remaining repository holds the identifier; if the tag list did not shrink,
fall back to identifier-based removal and delete the backing files
unconditionally.  The `nil`-repository dereference Go would panic on is an
`Except.error`. -/
def removeOne (s : RegState) (name : ArtieName) : Except String RegState :=
  match getArtefactLoc s.reg name with
  | Except.error e => Except.error e
  | Except.ok none => Except.ok s
  | Except.ok (some loc) =>
    let artie := artefactAt s.reg loc
    let length := artie.Tags.length
    match unTagOp s name name.Tag with
    | Except.error e => Except.error e
    | Except.ok s1 =>
      let artieNow := artefactAt s1.reg loc
      if artieNow.Tags.length < length then
        if artieNow.Tags.length == 0 then
          let reg2 : FileRegistry := ⟨removeRepoByName s1.reg.Repositories name⟩
          let found := reg2.Repositories.any
            (fun repo => repo.Artefacts.any (fun art => art.Id == artie.Id))
          if found then Except.ok (save { s1 with reg := reg2 })
          else Except.ok (save (removeFiles { s1 with reg := reg2 } artie))
        else Except.ok (save s1)
      else
        match findRepositoryIdx s1.reg name with
        | none => Except.error "nil repository dereference in Remove"
        | some rIx =>
          let reg2 : FileRegistry := ⟨updAt s1.reg.Repositories rIx
            (fun repo => ⟨repo.Repository, removeArtefactById repo.Artefacts name.Name⟩)⟩
          Except.ok (save (removeFiles { s1 with reg := reg2 } artie))

/-- `FileRegistry.Remove` over its list of references, left to right. -/
def RemoveOp (s : RegState) (names : List ArtieName) : Except String RegState :=
  names.foldlM removeOne s

/-- One output row of `FileRegistry.List`. -/
structure Row where
  repo : String
  tag : String
  id : String
  typ : String
  age : String
  size : String
deriving DecidableEq, Inhabited

/-- The short identifier `a.Id[7:19]` of `List`/`ListQ`; Go panics (here:
`none`) when the identifier is shorter than 19 bytes. -/
def shortIdSlice (id : String) : Option String :=
  if 19 ≤ id.length then some ⟨(id.toList.drop 7).take 12⟩ else none

/-- Rows of `FileRegistry.List` for one artefact: a `"<none>"` row when the
artefact is dangling, then one row per tag. -/
def artefactRowsOf (ageF : String → String) (repoName : String) (a : artefact) :
    Option (List Row) :=
  match shortIdSlice a.Id with
  | none => none
  | some sid =>
    some ((if a.Tags.isEmpty then [⟨repoName, "<none>", sid, a.typ, ageF a.Created, a.Size⟩]
      else []) ++ a.Tags.map (fun tag => ⟨repoName, tag, sid, a.typ, ageF a.Created, a.Size⟩))

/-- The artefact loop of `FileRegistry.List` within one repository. -/
def listArtsLoop (ageF : String → String) (repoName : String) :
    List artefact → Option (List Row)
  | [] => some []
  | a :: rest =>
    match artefactRowsOf ageF repoName a, listArtsLoop ageF repoName rest with
    | some rows, some more => some (rows ++ more)
    | _, _ => none

/-- The repository loop of `FileRegistry.List`. -/
def listReposLoop (ageF : String → String) : List repository → Option (List Row)
  | [] => some []
  | repo :: rest =>
    match listArtsLoop ageF repo.Repository repo.Artefacts, listReposLoop ageF rest with
    | some rows, some more => some (rows ++ more)
    | _, _ => none

/-- `FileRegistry.List` as the list of rows it writes (the tabwriter layout
and the header line are presentation, outside the model); `ageF` renders the
age column from the creation-time label (`toElapsedLabel` composed with the
RFC850 parse and the current clock, which are external). -/
def ListRows (ageF : String → String) (r : FileRegistry) : Option (List Row) :=
  listReposLoop ageF r.Repositories

/-- The artefact loop of `FileRegistry.ListQ` within one repository. -/
def listQArtsLoop : List artefact → Option (List String)
  | [] => some []
  | a :: rest =>
    match shortIdSlice a.Id, listQArtsLoop rest with
    | some sid, some more => some (sid :: more)
    | _, _ => none

/-- The repository loop of `FileRegistry.ListQ`. -/
def listQReposLoop : List repository → Option (List String)
  | [] => some []
  | repo :: rest =>
    match listQArtsLoop repo.Artefacts, listQReposLoop rest with
    | some rows, some more => some (rows ++ more)
    | _, _ => none

/-- `FileRegistry.ListQ` as the list of short identifiers it writes, one per
artefact. -/
def ListQRows (r : FileRegistry) : Option (List String) :=
  listQReposLoop r.Repositories

/-- Go `math.Trunc` composed with the `int64` conversion on a rational value:
truncation toward zero. -/
def goTrunc (q : ℚ) : ℤ :=
  if 0 ≤ q.num then Int.ofNat (q.num.toNat / q.den)
  else -(Int.ofNat ((-q.num).toNat / q.den))

/-- `plural` in fileRegistry.go: append an `s` when the value exceeds one. -/
def plural (value : ℤ) (label : String) : String :=
  if 1 < value then label ++ "s" else label

/-- `toElapsedLabel` in fileRegistry.go, modelled on the elapsed duration in
seconds (the RFC850 parse of the creation-time label and `time.Since` are
external; Go's float64 unit arithmetic is exact rational arithmetic here). -/
def toElapsedLabel (elapsedSeconds : ℚ) : String :=
  let seconds := elapsedSeconds
  let minutes := seconds / 60
  let hours := minutes / 60
  let days := hours / 24
  let weeks := days / 7
  let months := weeks / 4
  let years := months / 12
  if 0 < goTrunc years then toString (goTrunc years) ++ " " ++ plural (goTrunc years) "year" ++ " ago"
  else if 0 < goTrunc months then toString (goTrunc months) ++ " " ++ plural (goTrunc months) "month" ++ " ago"
  else if 0 < goTrunc weeks then toString (goTrunc weeks) ++ " " ++ plural (goTrunc weeks) "week" ++ " ago"
  else if 0 < goTrunc days then toString (goTrunc days) ++ " " ++ plural (goTrunc days) "day" ++ " ago"
  else if 0 < goTrunc hours then toString (goTrunc hours) ++ " " ++ plural (goTrunc hours) "hour" ++ " ago"
  else if 0 < goTrunc minutes then toString (goTrunc minutes) ++ " " ++ plural (goTrunc minutes) "minute" ++ " ago"
  else toString (goTrunc seconds) ++ " " ++ plural (goTrunc seconds) "second" ++ " ago"


/-! ## General helper lemmas -/

theorem updAt_length {α : Type} [Inhabited α] (l : List α) (i : Nat) (f : α → α) :
    (updAt l i f).length = l.length := by
  simp [updAt]

theorem updAt_getD_self {α : Type} [Inhabited α] (l : List α) (i : Nat) (f : α → α)
    (h : i < l.length) : (updAt l i f).getD i default = f (l.getD i default) := by
  simp [updAt, List.getD_eq_getElem?_getD, List.getElem?_set_self, h]

theorem updAt_getD_ne {α : Type} [Inhabited α] (l : List α) (i k : Nat) (f : α → α)
    (h : i ≠ k) : (updAt l i f).getD k default = l.getD k default := by
  simp [updAt, List.getD_eq_getElem?_getD, List.getElem?_set_ne h]

theorem mem_updAt {α : Type} [Inhabited α] {a : α} {l : List α} {i : Nat} {f : α → α}
    (h : a ∈ updAt l i f) : a ∈ l ∨ a = f (l.getD i default) :=
  List.mem_or_eq_of_mem_set h

theorem updAt_out_of_range {α : Type} [Inhabited α] (l : List α) (i : Nat) (f : α → α)
    (h : l.length ≤ i) : updAt l i f = l := by
  simp [updAt, List.set_eq_of_length_le h]

theorem set_getD_self {α : Type} [Inhabited α] :
    ∀ (l : List α) (i : Nat), l.set i (l.getD i default) = l
  | [], _ => by simp
  | _ :: _, 0 => by simp
  | x :: xs, (i + 1) => by
    have ih := set_getD_self xs i
    simp only [List.set_cons_succ, List.getD_cons_succ, ih]

theorem removeElement_not_mem (ts : List String) (t : String) : t ∉ RemoveElement ts t := by
  simp [RemoveElement]

theorem mem_of_mem_removeElement {ts : List String} {t x : String}
    (h : x ∈ RemoveElement ts t) : x ∈ ts :=
  List.mem_of_mem_filter h

theorem removeElement_length_lt {ts : List String} {t : String} (h : t ∈ ts) :
    (RemoveElement ts t).length < ts.length := by
  refine List.length_filter_lt_length_iff_exists.mpr ⟨t, h, by simp⟩

theorem removeElement_eq_self {ts : List String} {t : String} (h : t ∉ ts) :
    RemoveElement ts t = ts := by
  refine List.filter_eq_self.mpr (fun x hx => ?_)
  simp only [bne_iff_ne, ne_eq, decide_eq_true_eq]
  intro he
  exact h (he ▸ hx)

theorem set_last_dropLast_perm {α : Type} [Inhabited α] :
    ∀ (l : List α) (i : Nat), i < l.length →
      ((l.set i (l.getD (l.length - 1) default)).dropLast).Perm (l.eraseIdx i)
  | [], i, h => by simp at h
  | x :: xs, 0, _ => by
    cases xs with
    | nil => simp
    | cons y ys =>
      have hne : (y :: ys : List α) ≠ [] := by simp
      have hlast : (x :: y :: ys : List α).getD ((x :: y :: ys).length - 1) default
          = (y :: ys).getLast hne := by
        rw [List.getLast_eq_getElem]
        simp only [List.length_cons, Nat.add_sub_cancel]
        rw [List.getD_cons_succ, List.getD_eq_getElem _ _ (by simp)]
      rw [hlast]
      simp only [List.set_cons_zero, List.eraseIdx_cons_zero]
      rw [List.dropLast_cons_of_ne_nil hne]
      have h1 : ((y :: ys).getLast hne :: (y :: ys).dropLast).Perm
          ((y :: ys).dropLast ++ [(y :: ys).getLast hne]) :=
        (List.perm_append_singleton _ _).symm
      rw [List.dropLast_append_getLast hne] at h1
      exact h1
  | x :: xs, (i + 1), h => by
    have hi : i < xs.length := by simpa using h
    have hxs : xs ≠ [] := by intro he; rw [he] at hi; simp at hi
    have hlen : (x :: xs : List α).getD ((x :: xs).length - 1) default
        = xs.getD (xs.length - 1) default := by
      have : xs.length - 1 + 1 = (x :: xs).length - 1 := by
        cases xs with
        | nil => exact absurd rfl hxs
        | cons _ _ => simp
      rw [← this, List.getD_cons_succ]
    rw [hlen, List.set_cons_succ, List.eraseIdx_cons_succ]
    have hset : (xs.set i (xs.getD (xs.length - 1) default)) ≠ [] := by
      intro he
      have := congrArg List.length he
      simp at this
      rw [this] at hi
      simp at hi
    rw [List.dropLast_cons_of_ne_nil hset]
    exact (set_last_dropLast_perm xs i hi).cons x

theorem findIdx?_some_iff {α : Type} [Inhabited α] (p : α → Bool) :
    ∀ (l : List α) (i : Nat),
      l.findIdx? p = some i ↔
        (i < l.length ∧ p (l.getD i default) = true ∧
          ∀ k, k < i → p (l.getD k default) = false) := by
  intro l
  induction l with
  | nil => intro i; simp
  | cons x xs ih =>
    intro i
    rw [List.findIdx?_cons, List.findIdx?_succ]
    by_cases hx : p x
    · rw [if_pos hx]
      cases i with
      | zero => simp [hx]
      | succ i' =>
        simp only [List.getD_cons_succ, List.length_cons]
        constructor
        · intro hh; exact absurd hh (by simp)
        · rintro ⟨-, -, hall⟩
          have := hall 0 (by omega)
          rw [List.getD_cons_zero] at this
          rw [hx] at this
          exact absurd this (by simp)
    · rw [if_neg hx]
      have hxf : p x = false := by simpa using hx
      cases i with
      | zero =>
        simp only [Option.map_eq_some']
        constructor
        · rintro ⟨a, -, ha⟩; omega
        · rintro ⟨-, hp0, -⟩
          rw [List.getD_cons_zero, hxf] at hp0
          exact absurd hp0 (by simp)
      | succ i' =>
        simp only [Option.map_eq_some']
        constructor
        · rintro ⟨a, ha, hEq⟩
          have hai : i' = a := by omega
          subst hai
          obtain ⟨h1, h2, h3⟩ := (ih i').mp ha
          refine ⟨by simpa using h1, by simpa using h2, ?_⟩
          intro k hk
          cases k with
          | zero => simpa using hxf
          | succ k' => rw [List.getD_cons_succ]; exact h3 k' (by omega)
        · rintro ⟨h1, h2, h3⟩
          refine ⟨i', (ih i').mpr ⟨by simpa using h1, by simpa using h2, ?_⟩, rfl⟩
          intro k hk
          have := h3 (k + 1) (by omega)
          rwa [List.getD_cons_succ] at this

theorem findIdx?_updAt {α : Type} [Inhabited α] (p : α → Bool) (f : α → α)
    (hf : ∀ x, p (f x) = p x) :
    ∀ (l : List α) (i : Nat) (s : Nat), List.findIdx? p (updAt l i f) s = List.findIdx? p l s := by
  intro l
  induction l with
  | nil => intro i s; simp [updAt]
  | cons x xs ih =>
    intro i s
    cases i with
    | zero =>
      show List.findIdx? p (f x :: xs) s = _
      rw [List.findIdx?_cons, List.findIdx?_cons, hf]
    | succ i' =>
      show List.findIdx? p (x :: updAt xs i' f) s = _
      rw [List.findIdx?_cons, List.findIdx?_cons]
      by_cases hx : p x
      · simp [hx]
      · simp only [hx, if_false]
        exact ih i' (s + 1)

/-! ## The per-repository tag-uniqueness invariant -/

/-- Two artefact records have disjoint tag lists. -/
def TagDisjoint (a b : artefact) : Prop := ∀ t, t ∈ a.Tags → t ∉ b.Tags

instance (a b : artefact) : Decidable (TagDisjoint a b) :=
  List.decidableBAll (fun t => t ∉ b.Tags) a.Tags

theorem tagDisjoint_symm {a b : artefact} (h : TagDisjoint a b) : TagDisjoint b a :=
  fun t htb hta => h t hta htb

/-- No tag string labels two different artefacts of the repository. -/
def InvariantRepo (repo : repository) : Prop := repo.Artefacts.Pairwise TagDisjoint

instance (repo : repository) : Decidable (InvariantRepo repo) :=
  List.instDecidablePairwise _

/-- The spec's tag invariant: within each repository, a tag string names at
most one artefact. -/
def Invariant (r : FileRegistry) : Prop := ∀ repo ∈ r.Repositories, InvariantRepo repo

instance (r : FileRegistry) : Decidable (Invariant r) :=
  List.decidableBAll _ r.Repositories

theorem pairwise_updAt_shrink (arts : List artefact) (j : Nat) (g : List String → List String)
    (hg : ∀ ts, ∀ t ∈ g ts, t ∈ ts) (h : arts.Pairwise TagDisjoint) :
    (updAt arts j (fun a => { a with Tags := g a.Tags })).Pairwise TagDisjoint := by
  induction arts generalizing j with
  | nil => simp only [updAt, List.set_nil]; exact h
  | cons x xs ih =>
    cases j with
    | zero =>
      show ({ x with Tags := g x.Tags } :: xs).Pairwise TagDisjoint
      rw [List.pairwise_cons] at h ⊢
      exact ⟨fun b hb t ht => h.1 b hb t (hg _ _ ht), h.2⟩
    | succ j' =>
      show (x :: updAt xs j' (fun a => { a with Tags := g a.Tags })).Pairwise TagDisjoint
      rw [List.pairwise_cons] at h ⊢
      refine ⟨?_, ih j' h.2⟩
      intro b hb
      by_cases hj : j' < xs.length
      · rcases mem_updAt hb with hmem | heq
        · exact h.1 b hmem
        · subst heq
          intro t ht htb
          have hmem' : xs.getD j' default ∈ xs := by
            rw [List.getD_eq_getElem _ _ hj]
            exact List.getElem_mem hj
          exact h.1 _ hmem' t ht (hg _ _ htb)
      · rw [updAt_out_of_range xs j' _ (by omega)] at hb
        exact h.1 b hb

theorem no_tag_after_strip :
    ∀ (arts : List artefact) (j : Nat) (tag : String),
      j < arts.length → tag ∈ (arts.getD j default).Tags → arts.Pairwise TagDisjoint →
      ∀ a ∈ updAt arts j (fun a => { a with Tags := RemoveElement a.Tags tag }),
        tag ∉ a.Tags
  | [], j, tag, hj, _, _ => by simp at hj
  | x :: xs, 0, tag, _, htag, hpw => by
    intro a ha
    have hshow : updAt (x :: xs) 0 (fun a => { a with Tags := RemoveElement a.Tags tag })
        = { x with Tags := RemoveElement x.Tags tag } :: xs := rfl
    rw [hshow] at ha
    rw [List.getD_cons_zero] at htag
    rcases List.mem_cons.mp ha with heq | hmem
    · subst heq
      exact removeElement_not_mem _ _
    · exact (List.pairwise_cons.mp hpw).1 a hmem tag htag
  | x :: xs, (j + 1), tag, hj, htag, hpw => by
    intro a ha
    have hshow : updAt (x :: xs) (j + 1) (fun a => { a with Tags := RemoveElement a.Tags tag })
        = x :: updAt xs j (fun a => { a with Tags := RemoveElement a.Tags tag }) := rfl
    rw [hshow] at ha
    rw [List.getD_cons_succ] at htag
    have hj' : j < xs.length := by simpa using hj
    rcases List.mem_cons.mp ha with heq | hmem
    · subst heq
      intro hta
      have hmem' : xs.getD j default ∈ xs := by
        rw [List.getD_eq_getElem _ _ hj']
        exact List.getElem_mem hj'
      exact (List.pairwise_cons.mp hpw).1 _ hmem' tag hta htag
    · exact no_tag_after_strip xs j tag hj' htag (List.pairwise_cons.mp hpw).2 a hmem

/-! ## Characterizations of the `GetArtefact` loop -/

/-- The first fully-qualified-name repository hit together with its first tag
holder: what the `GetArtefact` loop returns when no identifier contains the
fragment. -/
def fqnTagSearch (name : ArtieName) : Nat → List repository → Option (Nat × Nat)
  | _, [] => none
  | ix, repo :: rest =>
    if repo.Repository == name.FullyQualifiedName then
      match findTagIdx repo.Artefacts name.Tag with
      | some j => some (ix, j)
      | none => none
    else fqnTagSearch name (ix + 1) rest

theorem getLocLoop_noMatches (name : ArtieName) :
    ∀ (repos : List repository) (ix : Nat),
      (∀ repo ∈ repos, matchIdxs repo.Artefacts name.Name = []) →
      getLocLoop name ix [] repos = Except.ok (fqnTagSearch name ix repos)
  | [], ix, _ => rfl
  | repo :: rest, ix, h => by
    have hm := h repo (List.mem_cons_self _ _)
    by_cases hr : (repo.Repository == name.FullyQualifiedName) = true
    · rw [getLocLoop, fqnTagSearch, if_pos hr, if_pos hr]
      cases findTagIdx repo.Artefacts name.Tag <;> rfl
    · rw [getLocLoop, fqnTagSearch, if_neg hr, if_neg hr]
      simp only [hm, List.map_nil, List.nil_append, List.length_nil]
      rw [if_neg (by omega)]
      exact getLocLoop_noMatches name rest (ix + 1)
        (fun r hrr => h r (List.mem_cons_of_mem _ hrr))

theorem fqnTagSearch_spec (name : ArtieName) :
    ∀ (repos : List repository) (ix : Nat),
      fqnTagSearch name ix repos =
        (repos.findIdx? (fun repo => repo.Repository == name.FullyQualifiedName)).bind
          (fun k => (findTagIdx (repos.getD k default).Artefacts name.Tag).map
            (fun j => (ix + k, j)))
  | [], ix => by simp [fqnTagSearch]
  | repo :: rest, ix => by
    by_cases hr : (repo.Repository == name.FullyQualifiedName) = true
    · rw [fqnTagSearch, if_pos hr, List.findIdx?_cons, if_pos hr]
      simp only [Option.some_bind, List.getD_cons_zero]
      cases findTagIdx repo.Artefacts name.Tag <;> rfl
    · rw [fqnTagSearch, if_neg hr, List.findIdx?_cons, if_neg hr, List.findIdx?_succ]
      rw [fqnTagSearch_spec name rest (ix + 1)]
      cases hfi : rest.findIdx? (fun r => r.Repository == name.FullyQualifiedName) with
      | none => rfl
      | some k =>
        simp only [Option.map_some', Option.some_bind, List.getD_cons_succ]
        cases findTagIdx (rest.getD k default).Artefacts name.Tag with
        | none => rfl
        | some j =>
          simp only [Option.map_some', Option.some.injEq, Prod.mk.injEq]
          exact ⟨by omega, trivial⟩

/-- `NoFrag r name`: no stored identifier contains the reference's bare name
fragment, so every substring fallback of the lookups is vacuous. -/
def NoFrag (r : FileRegistry) (name : ArtieName) : Prop :=
  ∀ repo ∈ r.Repositories, ∀ a ∈ repo.Artefacts, strContains a.Id name.Name = false

theorem matchIdxsFrom_eq_nil {frag : String} :
    ∀ (arts : List artefact) (s : Nat), (∀ a ∈ arts, strContains a.Id frag = false) →
      matchIdxsFrom frag s arts = []
  | [], _, _ => rfl
  | a :: rest, s, h => by
    rw [matchIdxsFrom, if_neg (by simp [h a (List.mem_cons_self _ _)])]
    exact matchIdxsFrom_eq_nil rest (s + 1) (fun b hb => h b (List.mem_cons_of_mem _ hb))

theorem getArtefactLoc_noFrag {r : FileRegistry} {name : ArtieName} (h : NoFrag r name) :
    getArtefactLoc r name = Except.ok (fqnTagSearch name 0 r.Repositories) :=
  getLocLoop_noMatches name r.Repositories 0
    (fun repo hrepo => matchIdxsFrom_eq_nil repo.Artefacts 0 (h repo hrepo))

theorem matchIdxsFrom_mem {frag : String} :
    ∀ (arts : List artefact) (s j : Nat),
      j ∈ matchIdxsFrom frag s arts ↔
        (s ≤ j ∧ j - s < arts.length ∧
          strContains ((arts.getD (j - s) default).Id) frag = true)
  | [], s, j => by
    rw [matchIdxsFrom]
    constructor
    · rintro ⟨⟩
    · rintro ⟨-, h2, -⟩
      simp at h2
  | a :: rest, s, j => by
    rw [matchIdxsFrom]
    by_cases hc : strContains a.Id frag = true
    · rw [if_pos hc, List.mem_cons, matchIdxsFrom_mem rest (s + 1) j]
      constructor
      · rintro (rfl | ⟨h1, h2, h3⟩)
        · exact ⟨Nat.le_refl _, by simp, by simpa using hc⟩
        · refine ⟨by omega, by simp only [List.length_cons]; omega, ?_⟩
          have hjs : j - s = (j - (s + 1)) + 1 := by omega
          rw [hjs, List.getD_cons_succ]
          exact h3
      · rintro ⟨h1, h2, h3⟩
        by_cases hj : j = s
        · exact Or.inl hj
        · simp only [List.length_cons] at h2
          refine Or.inr ⟨by omega, by omega, ?_⟩
          have hjs : j - s = (j - (s + 1)) + 1 := by omega
          rw [hjs, List.getD_cons_succ] at h3
          exact h3
    · rw [if_neg hc, matchIdxsFrom_mem rest (s + 1) j]
      constructor
      · rintro ⟨h1, h2, h3⟩
        refine ⟨by omega, by simp only [List.length_cons]; omega, ?_⟩
        have hjs : j - s = (j - (s + 1)) + 1 := by omega
        rw [hjs, List.getD_cons_succ]
        exact h3
      · rintro ⟨h1, h2, h3⟩
        have hj : j ≠ s := by
          intro he
          subst he
          rw [Nat.sub_self, List.getD_cons_zero] at h3
          exact hc h3
        simp only [List.length_cons] at h2
        refine ⟨by omega, by omega, ?_⟩
        have hjs : j - s = (j - (s + 1)) + 1 := by omega
        rw [hjs, List.getD_cons_succ] at h3
        exact h3

/-- Substring match positions over a repository suffix starting at repository
index `ix`. -/
def locsFrom (name : ArtieName) : Nat → List repository → List (Nat × Nat)
  | _, [] => []
  | ix, repo :: rest =>
    (matchIdxs repo.Artefacts name.Name).map (fun j => (ix, j)) ++ locsFrom name (ix + 1) rest

/-- All substring match positions of the registry, in traversal order (what
`GetArtefact`'s fallback accumulates when no repository matches by name). -/
def allMatchLocs (r : FileRegistry) (name : ArtieName) : List (Nat × Nat) :=
  locsFrom name 0 r.Repositories

theorem getLocLoop_noFqn (name : ArtieName) :
    ∀ (repos : List repository) (ix : Nat) (found : List (Nat × Nat)),
      (∀ repo ∈ repos, (repo.Repository == name.FullyQualifiedName) = false) →
      found.length ≤ 1 →
      ((found ++ locsFrom name ix repos).length ≤ 1 →
        getLocLoop name ix found repos = Except.ok (found ++ locsFrom name ix repos).head?) ∧
      (2 ≤ (found ++ locsFrom name ix repos).length →
        ∃ e, getLocLoop name ix found repos = Except.error e)
  | [], ix, found, _, hlen => by
    constructor
    · intro _
      rw [getLocLoop, locsFrom, List.append_nil]
    · intro h2
      rw [locsFrom, List.append_nil] at h2
      omega
  | repo :: rest, ix, found, hF, hlen => by
    have hr : (repo.Repository == name.FullyQualifiedName) = false :=
      hF repo (List.mem_cons_self _ _)
    have hner : ¬ ((repo.Repository == name.FullyQualifiedName) = true) := by
      rw [hr]; simp
    rw [getLocLoop, if_neg hner]
    rw [locsFrom, ← List.append_assoc]
    by_cases hgt : (found ++ (matchIdxs repo.Artefacts name.Name).map (fun j => (ix, j))).length > 1
    · rw [if_pos hgt]
      constructor
      · intro hle
        simp only [List.length_append] at hle hgt
        omega
      · intro _
        exact ⟨_, rfl⟩
    · rw [if_neg hgt]
      have ih := getLocLoop_noFqn name rest (ix + 1)
        (found ++ (matchIdxs repo.Artefacts name.Name).map (fun j => (ix, j)))
        (fun r hrr => hF r (List.mem_cons_of_mem _ hrr)) (by omega)
      exact ih

theorem findRepositoryIdx_noFqn (r : FileRegistry) (name : ArtieName)
    (hF : ∀ repo ∈ r.Repositories, (repo.Repository == name.FullyQualifiedName) = false) :
    findRepositoryIdx r name =
      r.Repositories.findIdx? (fun repo =>
        repo.Artefacts.any (fun a => strContains a.Id name.Name)) := by
  rw [findRepositoryIdx, List.findIdx?_eq_none_iff.mpr hF]

theorem findRepositoryIdx_some_of_match (r : FileRegistry) (name : ArtieName) (i j : Nat)
    (hi : i < r.Repositories.length) (hj : j < (r.Repositories.getD i default).Artefacts.length)
    (hc : strContains (artefactAt r (i, j)).Id name.Name = true) :
    ∃ k, findRepositoryIdx r name = some k := by
  rw [findRepositoryIdx]
  cases hfq : r.Repositories.findIdx? (fun repo => repo.Repository == name.FullyQualifiedName) with
  | some k => exact ⟨k, rfl⟩
  | none =>
    cases hfs : r.Repositories.findIdx? (fun repo =>
        repo.Artefacts.any (fun a => strContains a.Id name.Name)) with
    | some k => exact ⟨k, rfl⟩
    | none =>
      exfalso
      have hall := List.findIdx?_eq_none_iff.mp hfs
      have hmem : r.Repositories.getD i default ∈ r.Repositories := by
        rw [List.getD_eq_getElem _ _ hi]
        exact List.getElem_mem hi
      have hany := hall _ hmem
      have hmem2 : (r.Repositories.getD i default).Artefacts.getD j default
          ∈ (r.Repositories.getD i default).Artefacts := by
        rw [List.getD_eq_getElem _ _ hj]
        exact List.getElem_mem hj
      have : (r.Repositories.getD i default).Artefacts.any
          (fun a => strContains a.Id name.Name) = true :=
        List.any_eq_true.mpr ⟨_, hmem2, hc⟩
      rw [hany] at this
      exact Bool.false_ne_true this

theorem findIdx?_fqn_updateTagsAt (r : FileRegistry) (loc : Nat × Nat)
    (g : List String → List String) (name : ArtieName) :
    List.findIdx? (fun repo => repo.Repository == name.FullyQualifiedName)
        (updateTagsAt r loc g).Repositories
      = List.findIdx? (fun repo => repo.Repository == name.FullyQualifiedName)
        r.Repositories :=
  findIdx?_updAt (fun repo => repo.Repository == name.FullyQualifiedName)
    (fun repo => ⟨repo.Repository, updAt repo.Artefacts loc.2
      (fun a => { a with Tags := g a.Tags })⟩)
    (fun _ => rfl) r.Repositories loc.1 0

/-! ## Concrete states used by the claim theorems -/

/-- Reference `A/B:v1` with bare name fragment `b`. -/
def c1name1 : ArtieName := ⟨"b", "v1", "A/B"⟩

/-- Reference `A/B:v2` with bare name fragment `b`. -/
def c1name2 : ArtieName := ⟨"b", "v2", "A/B"⟩

def c1seal1 : Seal := ⟨"id1", "t", "1k", "c1"⟩

def c1seal2 : Seal := ⟨"id2", "t", "1k", "c2"⟩

/-- `Add f1.zip A/B:v1` from the empty registry. -/
def c1trace1 : Except String RegState := AddOp initState "f1.zip" c1name1 c1seal1

/-- ... then `Add f2.zip A/B:v2`. -/
def c1trace2 : Except String RegState :=
  match c1trace1 with
  | Except.ok s => AddOp s "f2.zip" c1name2 c1seal2
  | e => e

/-- ... then `Tag A/B:v1 → A/B:v2`. -/
def c1trace3 : Except String RegState :=
  match c1trace2 with
  | Except.ok s => TagOp s c1name1 c1name2
  | e => e

/-- The registry reached by the three-step trace. -/
def c1regFinal : FileRegistry := ⟨[⟨"A/B", [⟨"id1", "t", "f1", ["v1", "v2"], "1k", "c1"⟩,
  ⟨"id2", "t", "f2", ["v2"], "1k", "c2"⟩]⟩]⟩

/-- Two repositories sharing content identifier `X`; the reference has the
fully-qualified name of the second but no tag held there. -/
def c2reg : FileRegistry := ⟨[⟨"r1", [⟨"X", "t", "f1", ["t1"], "1k", "c"⟩]⟩,
  ⟨"r2", [⟨"X", "t", "f2", ["t2"], "1k", "c"⟩]⟩]⟩

def c2name : ArtieName := ⟨"X", "zz", "r2"⟩

/-- The registry after `Remove [c2name]` on `c2reg`: `r1` still holds the
artefact with identifier `X` whose backing files were just deleted. -/
def c2regExp : FileRegistry := ⟨[⟨"r1", [⟨"X", "t", "f1", ["t1"], "1k", "c"⟩]⟩, ⟨"r2", []⟩]⟩

/-- Source repository `A/B` and target repository `C/D` whose artefact already
holds the target tag `v1` next to another tag. -/
def tagBugReg : FileRegistry := ⟨[⟨"A/B", [⟨"idS", "t", "fS", ["v1"], "1k", "c"⟩]⟩,
  ⟨"C/D", [⟨"idT", "t", "fT", ["other", "v1"], "1k", "c"⟩]⟩]⟩

def tagBugSrc : ArtieName := ⟨"zz", "v1", "A/B"⟩

def tagBugTgt : ArtieName := ⟨"zz", "v1", "C/D"⟩

/-- The in-memory registry `Tag tagBugSrc tagBugTgt` leaves behind: the target
artefact's tag list got a duplicate `v1` appended. -/
def tagBugPost : FileRegistry := ⟨[⟨"A/B", [⟨"idS", "t", "fS", ["v1"], "1k", "c"⟩]⟩,
  ⟨"C/D", [⟨"idT", "t", "fT", ["other", "v1", "v1"], "1k", "c"⟩]⟩]⟩

/-- Two repositories, neither matching the reference's fully-qualified name,
each holding an artefact whose identifier contains the fragment `abc`. -/
def c4reg : FileRegistry := ⟨[⟨"r1", [⟨"abc1", "t", "f1", ["t1"], "1k", "c"⟩]⟩,
  ⟨"r2", [⟨"abc2", "t", "f2", ["t2"], "1k", "c"⟩]⟩]⟩

def c4name : ArtieName := ⟨"abc", "t", "zzz"⟩

/-- Three artefacts, the first matching fragment `a1`. -/
def c10arts : List artefact := [⟨"a1x", "t", "f1", [], "", ""⟩, ⟨"b", "t", "f2", [], "", ""⟩,
  ⟨"c", "t", "f3", [], "", ""⟩]

/-! ## Claim theorems -/

/-- C8 counterexample: the relative-age rendering of a creation time exactly
10 days before now is "1 week ago", not "10 days ago" as the claim's example
states (the code reaches weeks before days). -/
theorem c8_counterexample :
    toElapsedLabel (864000 : ℚ) = "1 week ago" ∧
    toElapsedLabel (864000 : ℚ) ≠ "10 days ago" := by
  have h : toElapsedLabel (864000 : ℚ) = "1 week ago" := by
    simp only [toElapsedLabel]
    norm_num [goTrunc, plural]
    rfl
  exact ⟨h, by rw [h]; decide⟩

/-- C8 (amended): the rendering picks the largest whole unit in the order
years > months > weeks > days > hours > minutes > seconds with week = 7 days,
month = 4 weeks and year = 12 such months (336 days), pluralizing exactly when
the magnitude exceeds one; hence 400 days before now renders "1 year ago",
10 days before renders "1 week ago", and exactly 1 day before renders
"1 day ago" (singular). -/
theorem c8_amended :
    toElapsedLabel (400 * 86400 : ℚ) = "1 year ago" ∧
    toElapsedLabel (10 * 86400 : ℚ) = "1 week ago" ∧
    toElapsedLabel (1 * 86400 : ℚ) = "1 day ago" ∧
    (∀ (n : ℤ) (label : String), plural n label = label ++ "s" ↔ 1 < n) := by
  refine ⟨?_, ?_, ?_, ?_⟩
  · simp only [toElapsedLabel]
    norm_num [goTrunc, plural]
    rfl
  · simp only [toElapsedLabel]
    norm_num [goTrunc, plural]
    rfl
  · simp only [toElapsedLabel]
    norm_num [goTrunc, plural]
    rfl
  · intro n label
    rw [plural]
    by_cases h : 1 < n
    · rw [if_pos h]
      simp [h]
    · rw [if_neg h]
      constructor
      · intro he
        have hlen := congrArg String.length he
        rw [String.length_append] at hlen
        have hs : ("s" : String).length = 1 := rfl
        omega
      · intro hn
        exact absurd hn h

/-- C10: `removeArtefactById` and `removeRepoByName` leave the list unchanged
when nothing matches, and otherwise remove exactly the first matching entry
(the one at the first index satisfying the predicate) by copying the last
element into its slot and truncating — a permutation of deleting that index,
which does not preserve the relative order of the survivors, as the concrete
instance shows. -/
theorem c10_remove_helpers :
    (∀ (a : List artefact) (id : String),
      a.findIdx? (fun x => strContains x.Id id) = none → removeArtefactById a id = a) ∧
    (∀ (a : List artefact) (id : String) (i : Nat),
      a.findIdx? (fun x => strContains x.Id id) = some i →
        (i < a.length ∧ strContains ((a.getD i default).Id) id = true ∧
          ∀ k, k < i → strContains ((a.getD k default).Id) id = false) ∧
        removeArtefactById a id = (a.set i (a.getD (a.length - 1) default)).dropLast ∧
        (removeArtefactById a id).Perm (a.eraseIdx i)) ∧
    (∀ (a : List repository) (nm : ArtieName),
      a.findIdx? (fun repo => repo.Repository == nm.FullyQualifiedName) = none →
        removeRepoByName a nm = a) ∧
    (∀ (a : List repository) (nm : ArtieName) (i : Nat),
      a.findIdx? (fun repo => repo.Repository == nm.FullyQualifiedName) = some i →
        (i < a.length ∧ ((a.getD i default).Repository == nm.FullyQualifiedName) = true ∧
          ∀ k, k < i → ((a.getD k default).Repository == nm.FullyQualifiedName) = false) ∧
        removeRepoByName a nm = (a.set i (a.getD (a.length - 1) default)).dropLast ∧
        (removeRepoByName a nm).Perm (a.eraseIdx i)) ∧
    removeArtefactById c10arts "a1" = [⟨"c", "t", "f3", [], "", ""⟩, ⟨"b", "t", "f2", [], "", ""⟩] := by
  refine ⟨?_, ?_, ?_, ?_, by decide⟩
  · intro a id h
    rw [removeArtefactById, h]
  · intro a id i h
    have hc := (findIdx?_some_iff _ a i).mp h
    rw [removeArtefactById, h]
    exact ⟨hc, rfl, set_last_dropLast_perm a i hc.1⟩
  · intro a nm h
    rw [removeRepoByName, h]
  · intro a nm i h
    have hc := (findIdx?_some_iff _ a i).mp h
    rw [removeRepoByName, h]
    exact ⟨hc, rfl, set_last_dropLast_perm a i hc.1⟩

/-- Witness for C10 at a concrete list: the first artefact (whose identifier
contains "a1") is removed and the survivors come back in swapped order. -/
theorem c10_remove_helpers_witness :
    (removeArtefactById c10arts "a1").Perm (c10arts.eraseIdx 0) :=
  (c10_remove_helpers.2.1 c10arts "a1" 0 (by decide)).2.2

/-- C3: a Tag call whose target repository already holds the target tag is
reported as a code bug exhibit — the operation completes without error but the
holder artefact is mutated (a duplicate of the target tag is appended for the
other tag in its list), contradicting the intended silent no-op. -/
theorem c3_tag_already_present_mutates :
    TagOp ⟨tagBugReg, tagBugReg, []⟩ tagBugSrc tagBugTgt
      = Except.ok ⟨tagBugPost, tagBugReg, []⟩ ∧
    (artefactAt tagBugReg (1, 0)).HasTag tagBugTgt.Tag = true ∧
    (artefactAt tagBugPost (1, 0)).Tags = ["other", "v1", "v1"] ∧
    artefactAt tagBugPost (1, 0) ≠ artefactAt tagBugReg (1, 0) := by decide

/-- C5: the same Tag call mutates the in-memory registry and returns without
persisting — the resulting in-memory index differs from the persisted
document. -/
theorem c5_tag_mutation_unpersisted :
    TagOp ⟨tagBugReg, tagBugReg, []⟩ tagBugSrc tagBugTgt
      = Except.ok ⟨tagBugPost, tagBugReg, []⟩ ∧
    tagBugPost ≠ tagBugReg := by decide

/-- C4 counterexample: with no repository matching the reference's
fully-qualified name and artefacts in two repositories whose identifiers both
contain the fragment, `findRepository` returns the first candidate repository
instead of reporting an ambiguity (its result type has no error outcome at
all). -/
theorem c4_counterexample :
    findRepositoryIdx c4reg c4name = some 0 ∧
    (∀ repo ∈ c4reg.Repositories, (repo.Repository == c4name.FullyQualifiedName) = false) ∧
    strContains (artefactAt c4reg (0, 0)).Id c4name.Name = true ∧
    strContains (artefactAt c4reg (1, 0)).Id c4name.Name = true := by decide

/-- C1 counterexample: starting from the empty registry, the reachable trace
`Add A/B:v1; Add A/B:v2; Tag A/B:v1 → A/B:v2` produces a repository in which
the tag "v2" labels two different artefacts, violating the claimed
invariant. -/
theorem c1_counterexample :
    c1trace3 = Except.ok ⟨c1regFinal, c1regFinal, []⟩ ∧
    "v2" ∈ (artefactAt c1regFinal (0, 0)).Tags ∧
    "v2" ∈ (artefactAt c1regFinal (0, 1)).Tags ∧
    artefactAt c1regFinal (0, 0) ≠ artefactAt c1regFinal (0, 1) ∧
    ¬ Invariant c1regFinal := by decide

/-- C4 (amended): when no repository matches the reference's fully-qualified
name, the repository lookup returns the index of the first repository holding
an artefact whose identifier contains the bare name fragment (none when there
is none); it performs no ambiguity detection and its result type has no error
outcome. -/
theorem c4_amended (r : FileRegistry) (name : ArtieName)
    (hF : ∀ repo ∈ r.Repositories, (repo.Repository == name.FullyQualifiedName) = false) :
    (∀ i, findRepositoryIdx r name = some i ↔
      (i < r.Repositories.length ∧
        (r.Repositories.getD i default).Artefacts.any
          (fun a => strContains a.Id name.Name) = true ∧
        ∀ k, k < i → (r.Repositories.getD k default).Artefacts.any
          (fun a => strContains a.Id name.Name) = false)) ∧
    (findRepositoryIdx r name = none ↔
      ∀ repo ∈ r.Repositories,
        repo.Artefacts.any (fun a => strContains a.Id name.Name) = false) := by
  rw [findRepositoryIdx_noFqn r name hF]
  exact ⟨fun i => findIdx?_some_iff _ _ _, List.findIdx?_eq_none_iff⟩

/-- Witness for C4 (amended): on the two-candidate registry the lookup indeed
returns the first candidate repository. -/
theorem c4_amended_witness : findRepositoryIdx c4reg c4name = some 0 :=
  ((c4_amended c4reg c4name (by decide)).1 0).mpr
    ⟨by decide, by decide, fun k hk => absurd hk (by omega)⟩

theorem locsFrom_mem (name : ArtieName) :
    ∀ (repos : List repository) (ix i j : Nat),
      ((i, j) ∈ locsFrom name ix repos) ↔
        (ix ≤ i ∧ i - ix < repos.length ∧
          j < (repos.getD (i - ix) default).Artefacts.length ∧
          strContains (((repos.getD (i - ix) default).Artefacts.getD j default).Id)
            name.Name = true)
  | [], ix, i, j => by
    rw [locsFrom]
    constructor
    · rintro ⟨⟩
    · rintro ⟨-, h2, -, -⟩
      simp at h2
  | repo :: rest, ix, i, j => by
    rw [locsFrom, List.mem_append, List.mem_map, locsFrom_mem name rest (ix + 1) i j]
    constructor
    · rintro (⟨j', hj', hEq⟩ | ⟨h1, h2, h3, h4⟩)
      · obtain ⟨hEq1, hEq2⟩ := Prod.mk.injEq .. ▸ hEq
        subst hEq1
        subst hEq2
        have hm := (matchIdxsFrom_mem repo.Artefacts 0 j').mp hj'
        rw [Nat.sub_zero] at hm
        exact ⟨Nat.le_refl _, by simp, by simpa using hm.2.1, by simpa using hm.2.2⟩
      · have hix : i - ix = (i - (ix + 1)) + 1 := by omega
        refine ⟨by omega, ?_, ?_, ?_⟩
        · simp only [List.length_cons]
          omega
        · rw [hix, List.getD_cons_succ]
          exact h3
        · rw [hix, List.getD_cons_succ]
          exact h4
    · rintro ⟨h1, h2, h3, h4⟩
      by_cases hieq : i = ix
      · subst hieq
        rw [Nat.sub_self, List.getD_cons_zero] at h3 h4
        refine Or.inl ⟨j, ?_, rfl⟩
        refine (matchIdxsFrom_mem repo.Artefacts 0 j).mpr ?_
        rw [Nat.sub_zero]
        exact ⟨Nat.zero_le _, h3, h4⟩
      · have hix : i - ix = (i - (ix + 1)) + 1 := by omega
        rw [hix, List.getD_cons_succ] at h3 h4
        simp only [List.length_cons] at h2
        exact Or.inr ⟨by omega, by omega, h3, h4⟩

/-- C6: when no repository matches the reference's fully-qualified name, the
artefact lookup falls back to the substring scan of the bare name fragment
over all identifiers and is tri-state: no match yields nil, exactly one match
yields that artefact's position, and two or more matches yield the ambiguity
error — never an arbitrary pick. -/
theorem c6_lookup_tri_state (r : FileRegistry) (name : ArtieName)
    (hF : ∀ repo ∈ r.Repositories, (repo.Repository == name.FullyQualifiedName) = false) :
    (allMatchLocs r name = [] → getArtefactLoc r name = Except.ok none) ∧
    (∀ loc, allMatchLocs r name = [loc] → getArtefactLoc r name = Except.ok (some loc)) ∧
    (2 ≤ (allMatchLocs r name).length → ∃ e, getArtefactLoc r name = Except.error e) ∧
    (∀ i j, ((i, j) ∈ allMatchLocs r name) ↔
      (i < r.Repositories.length ∧
        j < (r.Repositories.getD i default).Artefacts.length ∧
        strContains (artefactAt r (i, j)).Id name.Name = true)) := by
  have hloop := getLocLoop_noFqn name r.Repositories 0 [] hF (by simp)
  rw [List.nil_append] at hloop
  have hdef : getArtefactLoc r name = getLocLoop name 0 [] r.Repositories := rfl
  have hall : allMatchLocs r name = locsFrom name 0 r.Repositories := rfl
  refine ⟨?_, ?_, ?_, ?_⟩
  · intro hnil
    rw [hall] at hnil
    rw [hdef, hloop.1 (by rw [hnil]; simp), hnil]
    rfl
  · intro loc hone
    rw [hall] at hone
    rw [hdef, hloop.1 (by rw [hone]; simp), hone]
    rfl
  · intro h2
    rw [hall] at h2
    exact hdef ▸ hloop.2 h2
  · intro i j
    rw [hall, locsFrom_mem name r.Repositories 0 i j]
    constructor
    · rintro ⟨-, h2, h3, h4⟩
      rw [Nat.sub_zero] at h2 h3 h4
      exact ⟨h2, h3, h4⟩
    · rintro ⟨h2, h3, h4⟩
      rw [Nat.sub_zero]
      exact ⟨Nat.zero_le _, h2, h3, h4⟩

/-- A registry with a single substring match for `c6name`. -/
def c6reg : FileRegistry := ⟨[⟨"r1", [⟨"zz", "t", "f0", ["t0"], "1k", "c"⟩,
  ⟨"abc1", "t", "f1", ["t1"], "1k", "c"⟩]⟩]⟩

def c6name : ArtieName := ⟨"abc", "t", "r9"⟩

/-- Witness for C6: the single-match lookup returns exactly that artefact's
position. -/
theorem c6_lookup_tri_state_witness :
    getArtefactLoc c6reg c6name = Except.ok (some (0, 1)) :=
  (c6_lookup_tri_state c6reg c6name (by decide)).2.1 (0, 1) (by decide)

theorem shortIdSlice_isSome (id : String) :
    (shortIdSlice id).isSome = true ↔ 19 ≤ id.length := by
  rw [shortIdSlice]
  by_cases h : 19 ≤ id.length
  · simp [h]
  · simp [h]

theorem listQArtsLoop_spec :
    ∀ (arts : List artefact),
      ((listQArtsLoop arts).isSome = true ↔ ∀ a ∈ arts, 19 ≤ a.Id.length) ∧
      ((∀ a ∈ arts, 19 ≤ a.Id.length) →
        listQArtsLoop arts
          = some (arts.map (fun a => ((⟨(a.Id.toList.drop 7).take 12⟩ : String)))))
  | [] => by
    constructor
    · simp [listQArtsLoop]
    · intro _
      rfl
  | a :: rest => by
    obtain ⟨ih1, ih2⟩ := listQArtsLoop_spec rest
    rw [listQArtsLoop]
    by_cases ha : 19 ≤ a.Id.length
    · have hsid : shortIdSlice a.Id = some (⟨(a.Id.toList.drop 7).take 12⟩ : String) := by
        rw [shortIdSlice, if_pos ha]
      rw [hsid]
      constructor
      · cases hrest : listQArtsLoop rest with
        | none =>
          constructor
          · intro hh
            exact absurd hh (by simp)
          · intro hall
            rw [ih2 (fun b hb => hall b (List.mem_cons_of_mem _ hb))] at hrest
            exact absurd hrest (by simp)
        | some more =>
          constructor
          · intro _
            intro b hb
            rcases List.mem_cons.mp hb with heq | hmem
            · subst heq
              exact ha
            · exact ih1.mp (by rw [hrest]; rfl) b hmem
          · intro _
            rfl
      · intro hall
        rw [ih2 (fun b hb => hall b (List.mem_cons_of_mem _ hb))]
        rfl
    · have hsid : shortIdSlice a.Id = none := by
        rw [shortIdSlice, if_neg ha]
      rw [hsid]
      constructor
      · constructor
        · intro hh
          exact absurd hh (by simp)
        · intro hall
          exact absurd (hall a (List.mem_cons_self _ _)) ha
      · intro hall
        exact absurd (hall a (List.mem_cons_self _ _)) ha

theorem listQReposLoop_spec :
    ∀ (repos : List repository),
      ((listQReposLoop repos).isSome = true ↔
        ∀ repo ∈ repos, ∀ a ∈ repo.Artefacts, 19 ≤ a.Id.length) ∧
      ((∀ repo ∈ repos, ∀ a ∈ repo.Artefacts, 19 ≤ a.Id.length) →
        listQReposLoop repos
          = some ((repos.flatMap (fun repo => repo.Artefacts)).map
              (fun a => ((⟨(a.Id.toList.drop 7).take 12⟩ : String)))))
  | [] => by
    constructor
    · simp [listQReposLoop]
    · intro _
      rfl
  | repo :: rest => by
    obtain ⟨ih1, ih2⟩ := listQReposLoop_spec rest
    obtain ⟨hq1, hq2⟩ := listQArtsLoop_spec repo.Artefacts
    rw [listQReposLoop]
    constructor
    · cases harts : listQArtsLoop repo.Artefacts with
      | none =>
        constructor
        · intro hh
          exact absurd hh (by simp)
        · intro hall
          rw [hq2 (hall repo (List.mem_cons_self _ _))] at harts
          exact absurd harts (by simp)
      | some rows =>
        cases hrest : listQReposLoop rest with
        | none =>
          constructor
          · intro hh
            exact absurd hh (by simp)
          · intro hall
            rw [ih2 (fun rp hrp => hall rp (List.mem_cons_of_mem _ hrp))] at hrest
            exact absurd hrest (by simp)
        | some more =>
          constructor
          · intro _
            intro rp hrp
            rcases List.mem_cons.mp hrp with heq | hmem
            · subst heq
              exact hq1.mp (by rw [harts]; rfl)
            · exact ih1.mp (by rw [hrest]; rfl) rp hmem
          · intro _
            rfl
    · intro hall
      rw [hq2 (hall repo (List.mem_cons_self _ _)),
        ih2 (fun rp hrp => hall rp (List.mem_cons_of_mem _ hrp))]
      show some _ = some _
      rw [List.flatMap_cons, List.map_append]

theorem artefactRowsOf_isSome (ageF : String → String) (nm : String) (a : artefact) :
    (artefactRowsOf ageF nm a).isSome = true ↔ 19 ≤ a.Id.length := by
  rw [artefactRowsOf]
  by_cases h : 19 ≤ a.Id.length
  · rw [shortIdSlice, if_pos h]
    simp [h]
  · rw [shortIdSlice, if_neg h]
    simp [h]

theorem listArtsLoop_isSome (ageF : String → String) (nm : String) :
    ∀ (arts : List artefact),
      (listArtsLoop ageF nm arts).isSome = true ↔ ∀ a ∈ arts, 19 ≤ a.Id.length
  | [] => by simp [listArtsLoop]
  | a :: rest => by
    rw [listArtsLoop]
    cases hrow : artefactRowsOf ageF nm a with
    | none =>
      constructor
      · intro hh
        exact absurd hh (by simp)
      · intro hall
        have := (artefactRowsOf_isSome ageF nm a).mpr (hall a (List.mem_cons_self _ _))
        rw [hrow] at this
        exact absurd this (by simp)
    | some rows =>
      cases hrest : listArtsLoop ageF nm rest with
      | none =>
        constructor
        · intro hh
          exact absurd hh (by simp)
        · intro hall
          have := (listArtsLoop_isSome ageF nm rest).mpr
            (fun b hb => hall b (List.mem_cons_of_mem _ hb))
          rw [hrest] at this
          exact absurd this (by simp)
      | some more =>
        constructor
        · intro _
          intro b hb
          rcases List.mem_cons.mp hb with heq | hmem
          · rw [heq]
            refine (artefactRowsOf_isSome ageF nm a).mp ?_
            rw [hrow]
            rfl
          · refine (listArtsLoop_isSome ageF nm rest).mp ?_ b hmem
            rw [hrest]
            rfl
        · intro _
          rfl

theorem listReposLoop_isSome (ageF : String → String) :
    ∀ (repos : List repository),
      (listReposLoop ageF repos).isSome = true ↔
        ∀ repo ∈ repos, ∀ a ∈ repo.Artefacts, 19 ≤ a.Id.length
  | [] => by simp [listReposLoop]
  | repo :: rest => by
    rw [listReposLoop]
    cases harts : listArtsLoop ageF repo.Repository repo.Artefacts with
    | none =>
      constructor
      · intro hh
        exact absurd hh (by simp)
      · intro hall
        have := (listArtsLoop_isSome ageF repo.Repository repo.Artefacts).mpr
          (hall repo (List.mem_cons_self _ _))
        rw [harts] at this
        exact absurd this (by simp)
    | some rows =>
      cases hrest : listReposLoop ageF rest with
      | none =>
        constructor
        · intro hh
          exact absurd hh (by simp)
        · intro hall
          have := (listReposLoop_isSome ageF rest).mpr
            (fun rp hrp => hall rp (List.mem_cons_of_mem _ hrp))
          rw [hrest] at this
          exact absurd this (by simp)
      | some more =>
        constructor
        · intro _
          intro rp hrp
          rcases List.mem_cons.mp hrp with heq | hmem
          · rw [heq]
            refine (listArtsLoop_isSome ageF repo.Repository repo.Artefacts).mp ?_
            rw [harts]
            rfl
          · refine (listReposLoop_isSome ageF rest).mp ?_ rp hmem
            rw [hrest]
            rfl
        · intro _
          rfl

/-- C9: `List` and `ListQ` slice every artefact's identifier as `Id[7:19]`;
each succeeds exactly when every stored identifier has length at least 19,
and under that precondition the quiet listing is the slice `[7, 19)` of every
identifier in traversal order (so the out-of-range branch is unreachable). -/
theorem c9_short_id_safety (r : FileRegistry) (ageF : String → String) :
    ((ListQRows r).isSome = true ↔
      ∀ repo ∈ r.Repositories, ∀ a ∈ repo.Artefacts, 19 ≤ a.Id.length) ∧
    ((ListRows ageF r).isSome = true ↔
      ∀ repo ∈ r.Repositories, ∀ a ∈ repo.Artefacts, 19 ≤ a.Id.length) ∧
    ((∀ repo ∈ r.Repositories, ∀ a ∈ repo.Artefacts, 19 ≤ a.Id.length) →
      ListQRows r = some ((r.Repositories.flatMap (fun repo => repo.Artefacts)).map
        (fun a => ((⟨(a.Id.toList.drop 7).take 12⟩ : String))))) :=
  ⟨(listQReposLoop_spec r.Repositories).1, listReposLoop_isSome ageF r.Repositories,
    (listQReposLoop_spec r.Repositories).2⟩

/-- A registry with one 20-character identifier. -/
def c9reg : FileRegistry :=
  ⟨[⟨"r1", [⟨"0123456789abcdefghij", "t", "f1", ["t1"], "1k", "c"⟩]⟩]⟩

/-- Witness for C9: the quiet listing of `c9reg` succeeds and is the single
slice `[7, 19)` of its identifier. -/
theorem c9_short_id_safety_witness : ListQRows c9reg = some ["789abcdefghi"] := by
  have h := (c9_short_id_safety c9reg (fun s => s)).2.2 (by decide)
  rw [h]
  rfl

theorem append_singleton_ne {α : Type} (l : List α) (x : α) : l ++ [x] ≠ l := by
  intro h
  have hlen := congrArg List.length h
  rw [List.length_append] at hlen
  simp at hlen

theorem artefactAt_updateTagsAt_self (r : FileRegistry) (i j : Nat)
    (g : List String → List String)
    (hi : i < r.Repositories.length)
    (hj : j < (r.Repositories.getD i default).Artefacts.length) :
    artefactAt (updateTagsAt r (i, j) g) (i, j)
      = { artefactAt r (i, j) with Tags := g (artefactAt r (i, j)).Tags } := by
  simp only [artefactAt, updateTagsAt]
  rw [updAt_getD_self _ _ _ hi]
  rw [updAt_getD_self _ _ _ hj]

/-- C2 counterexample: on a store where repositories `r1` and `r2` both hold
an artefact with content identifier `X`, removing by a reference that
resolves the `r1` artefact through the substring fallback deletes that
artefact's backing files (`f1`) although `r1` still holds an artefact with
identifier `X` afterwards. -/
theorem c2_counterexample :
    removeOne ⟨c2reg, c2reg, []⟩ c2name = Except.ok ⟨c2regExp, c2regExp, ["f1"]⟩ ∧
    (artefactAt c2regExp (0, 0)).Id = "X" ∧
    (artefactAt c2regExp (0, 0)).FileRef = "f1" ∧
    0 < c2regExp.Repositories.length := by decide

theorem updateTagsAt_length (r : FileRegistry) (i j : Nat) (g : List String → List String) :
    (updateTagsAt r (i, j) g).Repositories.length = r.Repositories.length := by
  show (updAt r.Repositories i (fun repo => ⟨repo.Repository, updAt repo.Artefacts j
    (fun a => { a with Tags := g a.Tags })⟩)).length = r.Repositories.length
  exact updAt_length _ _ _

theorem updateTagsAt_arts_length (r : FileRegistry) (i j : Nat) (g : List String → List String)
    (hi : i < r.Repositories.length) :
    ((updateTagsAt r (i, j) g).Repositories.getD i default).Artefacts.length
      = (r.Repositories.getD i default).Artefacts.length := by
  show ((updAt r.Repositories i (fun repo => ⟨repo.Repository, updAt repo.Artefacts j
    (fun a => { a with Tags := g a.Tags })⟩)).getD i default).Artefacts.length
    = (r.Repositories.getD i default).Artefacts.length
  rw [updAt_getD_self _ _ _ hi]
  show (updAt (r.Repositories.getD i default).Artefacts j
    (fun a => { a with Tags := g a.Tags })).length
    = (r.Repositories.getD i default).Artefacts.length
  exact updAt_length _ _ _

theorem idPresent_after_updateTags (r : FileRegistry) (i j : Nat)
    (g : List String → List String)
    (hi : i < r.Repositories.length)
    (hj : j < (r.Repositories.getD i default).Artefacts.length) :
    ∃ repo ∈ (updateTagsAt r (i, j) g).Repositories, ∃ art ∈ repo.Artefacts,
      art.Id = (artefactAt r (i, j)).Id := by
  have hilen : i < (updateTagsAt r (i, j) g).Repositories.length := by
    rw [updateTagsAt_length]
    exact hi
  have hjlen : j < ((updateTagsAt r (i, j) g).Repositories.getD i default).Artefacts.length := by
    rw [updateTagsAt_arts_length r i j g hi]
    exact hj
  refine ⟨(updateTagsAt r (i, j) g).Repositories.getD i default, ?_,
    ((updateTagsAt r (i, j) g).Repositories.getD i default).Artefacts.getD j default, ?_, ?_⟩
  · rw [List.getD_eq_getElem _ _ hilen]
    exact List.getElem_mem hilen
  · rw [List.getD_eq_getElem _ _ hjlen]
    exact List.getElem_mem hjlen
  · have heq : ((updateTagsAt r (i, j) g).Repositories.getD i default).Artefacts.getD j default
        = artefactAt (updateTagsAt r (i, j) g) (i, j) := rfl
    rw [heq, artefactAt_updateTagsAt_self r i j g hi hj]

theorem updateTagsAt_id (r : FileRegistry) (i j : Nat) (g : List String → List String)
    (hg : g ((r.Repositories.getD i default).Artefacts.getD j default).Tags
        = ((r.Repositories.getD i default).Artefacts.getD j default).Tags) :
    updateTagsAt r (i, j) g = r := by
  have hinner : updAt (r.Repositories.getD i default).Artefacts j
      (fun a => { a with Tags := g a.Tags })
      = (r.Repositories.getD i default).Artefacts := by
    rw [updAt]
    have hfa : ({ (r.Repositories.getD i default).Artefacts.getD j default with
        Tags := g ((r.Repositories.getD i default).Artefacts.getD j default).Tags } : artefact)
        = (r.Repositories.getD i default).Artefacts.getD j default := by
      rw [hg]
    rw [hfa, set_getD_self]
  simp only [updateTagsAt]
  rw [updAt, hinner]
  have heta : (⟨(r.Repositories.getD i default).Repository,
      (r.Repositories.getD i default).Artefacts⟩ : repository)
      = r.Repositories.getD i default := rfl
  rw [heta, set_getD_self]

/-- C2 (amended): on the tag-removal path (the named tag is present on the
resolved artefact) the backing files are deleted exactly when no repository of
the resulting store still holds an artefact with the same content identifier;
on the identifier-fallback path (named tag absent, artefact resolved through
the substring scan) the backing files are deleted unconditionally. -/
theorem c2_amended :
    (∀ (s : RegState) (name : ArtieName) (i j : Nat),
      getArtefactLoc s.reg name = Except.ok (some (i, j)) →
      i < s.reg.Repositories.length →
      j < (s.reg.Repositories.getD i default).Artefacts.length →
      name.Tag ∈ (artefactAt s.reg (i, j)).Tags →
      ∃ s', removeOne s name = Except.ok s' ∧
        (s'.deleted = s.deleted ++ [(artefactAt s.reg (i, j)).FileRef] ∨
          s'.deleted = s.deleted) ∧
        (s'.deleted ≠ s.deleted ↔
          ∀ repo ∈ s'.reg.Repositories, ∀ art ∈ repo.Artefacts,
            art.Id ≠ (artefactAt s.reg (i, j)).Id)) ∧
    (∀ (s : RegState) (name : ArtieName) (i j : Nat),
      getArtefactLoc s.reg name = Except.ok (some (i, j)) →
      i < s.reg.Repositories.length →
      j < (s.reg.Repositories.getD i default).Artefacts.length →
      name.Tag ∉ (artefactAt s.reg (i, j)).Tags →
      strContains (artefactAt s.reg (i, j)).Id name.Name = true →
      ∃ s', removeOne s name = Except.ok s' ∧
        s'.deleted = s.deleted ++ [(artefactAt s.reg (i, j)).FileRef]) := by
  constructor
  · intro s name i j hres hi hj htag
    have hupd := artefactAt_updateTagsAt_self s.reg i j
      (fun ts => RemoveElement ts name.Tag) hi hj
    have hlt : (RemoveElement (artefactAt s.reg (i, j)).Tags name.Tag).length
        < (artefactAt s.reg (i, j)).Tags.length := removeElement_length_lt htag
    simp only [removeOne, unTagOp, hres, hupd]
    rw [if_pos hlt]
    by_cases hz : RemoveElement (artefactAt s.reg (i, j)).Tags name.Tag = []
    · rw [hz]
      rw [if_pos (by decide)]
      cases hfound : (FileRegistry.mk (removeRepoByName
          (updateTagsAt s.reg (i, j) (fun ts => RemoveElement ts name.Tag)).Repositories
          name)).Repositories.any (fun repo => repo.Artefacts.any
            (fun art => art.Id == (artefactAt s.reg (i, j)).Id)) with
      | true =>
        rw [if_pos rfl]
        refine ⟨_, rfl, Or.inr rfl, ?_⟩
        constructor
        · intro hne
          exact absurd rfl hne
        · intro hforall
          exfalso
          obtain ⟨repo, hrepo, hany⟩ := List.any_eq_true.mp hfound
          obtain ⟨art, hart, hid⟩ := List.any_eq_true.mp hany
          exact hforall repo hrepo art hart (by simpa using hid)
      | false =>
        rw [if_neg (by simp)]
        refine ⟨_, rfl, Or.inl rfl, ?_⟩
        constructor
        · intro _
          intro repo hrepo art hart
          have hall := List.any_eq_false.mp hfound repo hrepo
          have hall2 : (repo.Artefacts.any
              (fun art => art.Id == (artefactAt s.reg (i, j)).Id)) = false := by
            simpa using hall
          have := List.any_eq_false.mp hall2 art hart
          simpa using this
        · intro _
          exact append_singleton_ne _ _
    · rw [if_neg (by simp [hz])]
      refine ⟨_, rfl, Or.inr rfl, ?_⟩
      constructor
      · intro hne
        exact absurd rfl hne
      · intro hforall
        exfalso
        obtain ⟨repo, hrepo, art, hart, hid⟩ := idPresent_after_updateTags s.reg i j
          (fun ts => RemoveElement ts name.Tag) hi hj
        exact hforall repo hrepo art hart hid
  · intro s name i j hres hi hj htag hsub
    have hre : RemoveElement ((s.reg.Repositories.getD i default).Artefacts.getD
        j default).Tags name.Tag
        = ((s.reg.Repositories.getD i default).Artefacts.getD j default).Tags :=
      removeElement_eq_self htag
    have hregEq : updateTagsAt s.reg (i, j) (fun ts => RemoveElement ts name.Tag) = s.reg :=
      updateTagsAt_id s.reg i j _ hre
    obtain ⟨k, hk⟩ := findRepositoryIdx_some_of_match s.reg name i j hi hj hsub
    simp only [removeOne, unTagOp, hres, hregEq, hk]
    rw [if_neg (by omega)]
    exact ⟨_, rfl, rfl⟩

/-- Witness for C2 (amended), fallback path: the concrete two-repository
removal deletes `f1` unconditionally. -/
theorem c2_amended_witness :
    ∃ s', removeOne ⟨c2reg, c2reg, []⟩ c2name = Except.ok s' ∧
      s'.deleted = ([] : List String) ++ [(artefactAt c2reg (0, 0)).FileRef] :=
  c2_amended.2 ⟨c2reg, c2reg, []⟩ c2name 0 0 (by decide) (by decide) (by decide)
    (by decide) (by decide)

theorem getD_append_left {α : Type} [Inhabited α] :
    ∀ (l l' : List α) (i : Nat), i < l.length → (l ++ l').getD i default = l.getD i default
  | [], _, i, h => by simp at h
  | _ :: _, _, 0, _ => rfl
  | x :: xs, l', (i + 1), h => by
    show (xs ++ l').getD i default = xs.getD i default
    exact getD_append_left xs l' i (by simpa using h)

theorem getD_append_length {α : Type} [Inhabited α] :
    ∀ (l : List α) (x : α), (l ++ [x]).getD l.length default = x
  | [], _ => rfl
  | _ :: ys, x => getD_append_length ys x

/-- C7: when an artefact of the target repository already holds the target
tag (uniquely, per the tag invariant), a completed Add appends the new
artefact carrying exactly that tag and the manifest's identifier, strips the
tag from the previous holder — which keeps every other tag and every other
field and stays in the repository — leaves all other artefacts untouched, and
afterwards the tag belongs to the newly created artefact only. -/
theorem c7_add_steals_tag (s : RegState) (filename : String) (name : ArtieName)
    (sealArg : Seal) (i j : Nat)
    (hzip : pathExt (filepathBase filename) = ".zip")
    (hres : getArtefactLoc s.reg name = Except.ok (some (i, j)))
    (hfqn : s.reg.Repositories.findIdx?
      (fun repo => repo.Repository == name.FullyQualifiedName) = some i)
    (hj : j < (s.reg.Repositories.getD i default).Artefacts.length)
    (hholds : name.Tag ∈ (artefactAt s.reg (i, j)).Tags)
    (huniq : ∀ k, k < (s.reg.Repositories.getD i default).Artefacts.length → k ≠ j →
      name.Tag ∉ ((s.reg.Repositories.getD i default).Artefacts.getD k default).Tags) :
    ∃ s', AddOp s filename name sealArg = Except.ok s' ∧
      ((s'.reg.Repositories.getD i default).Artefacts.length
        = (s.reg.Repositories.getD i default).Artefacts.length + 1) ∧
      (((s'.reg.Repositories.getD i default).Artefacts.getD
          (s.reg.Repositories.getD i default).Artefacts.length default).Tags = [name.Tag]) ∧
      (((s'.reg.Repositories.getD i default).Artefacts.getD
          (s.reg.Repositories.getD i default).Artefacts.length default).Id
        = sealArg.artefactId) ∧
      ((s'.reg.Repositories.getD i default).Artefacts.getD j default
        = { artefactAt s.reg (i, j) with
            Tags := RemoveElement (artefactAt s.reg (i, j)).Tags name.Tag }) ∧
      (∀ k, k < (s.reg.Repositories.getD i default).Artefacts.length → k ≠ j →
        (s'.reg.Repositories.getD i default).Artefacts.getD k default
          = (s.reg.Repositories.getD i default).Artefacts.getD k default) ∧
      (∀ k, k < (s'.reg.Repositories.getD i default).Artefacts.length →
        name.Tag ∈ ((s'.reg.Repositories.getD i default).Artefacts.getD k default).Tags →
        k = (s.reg.Repositories.getD i default).Artefacts.length) := by
  have hi : i < s.reg.Repositories.length :=
    ((findIdx?_some_iff _ s.reg.Repositories i).mp hfqn).1
  have hfr : findRepositoryIdx
      (updateTagsAt s.reg (i, j) (fun ts => RemoveElement ts name.Tag)) name = some i := by
    rw [findRepositoryIdx, findIdx?_fqn_updateTagsAt, hfqn]
  have hi1 : i < (updateTagsAt s.reg (i, j)
      (fun ts => RemoveElement ts name.Tag)).Repositories.length := by
    rw [updateTagsAt_length]
    exact hi
  have hR1arts : ((updateTagsAt s.reg (i, j)
      (fun ts => RemoveElement ts name.Tag)).Repositories.getD i default).Artefacts
      = updAt (s.reg.Repositories.getD i default).Artefacts j
          (fun a => { a with Tags := RemoveElement a.Tags name.Tag }) := by
    show ((updAt s.reg.Repositories i (fun repo => ⟨repo.Repository,
      updAt repo.Artefacts j (fun a => { a with
        Tags := RemoveElement a.Tags name.Tag })⟩)).getD i default).Artefacts = _
    rw [updAt_getD_self _ _ _ hi]
  simp only [AddOp, unTagOp, hres, hzip, bne_self_eq_false, Bool.false_eq_true, if_false, hfr]
  refine ⟨_, rfl, ?_, ?_, ?_, ?_, ?_, ?_⟩
  all_goals
    simp only [save]
    have harts : ((FileRegistry.mk (updAt (updateTagsAt s.reg (i, j)
        (fun ts => RemoveElement ts name.Tag)).Repositories i
        (fun repo => ⟨repo.Repository, repo.Artefacts ++
          [⟨sealArg.artefactId, sealArg.typ,
            trimSuffix (filepathBase filename) ".zip", [name.Tag],
            sealArg.size, sealArg.time⟩]⟩))).Repositories.getD i default).Artefacts
        = updAt (s.reg.Repositories.getD i default).Artefacts j
            (fun a => { a with Tags := RemoveElement a.Tags name.Tag }) ++
          [⟨sealArg.artefactId, sealArg.typ,
            trimSuffix (filepathBase filename) ".zip", [name.Tag],
            sealArg.size, sealArg.time⟩] := by
      show ((updAt (updateTagsAt s.reg (i, j)
        (fun ts => RemoveElement ts name.Tag)).Repositories i
        (fun repo => (⟨repo.Repository, repo.Artefacts ++
          [⟨sealArg.artefactId, sealArg.typ,
            trimSuffix (filepathBase filename) ".zip", [name.Tag],
            sealArg.size, sealArg.time⟩]⟩ : repository))).getD i default).Artefacts = _
      rw [updAt_getD_self _ _ _ hi1]
      show ((updateTagsAt s.reg (i, j)
        (fun ts => RemoveElement ts name.Tag)).Repositories.getD i default).Artefacts ++ _ = _
      rw [hR1arts]
  · rw [harts]
    rw [List.length_append, updAt_length]
    rfl
  · rw [harts]
    have hlen : (s.reg.Repositories.getD i default).Artefacts.length
        = (updAt (s.reg.Repositories.getD i default).Artefacts j
            (fun a => { a with Tags := RemoveElement a.Tags name.Tag })).length := by
      rw [updAt_length]
    rw [hlen, getD_append_length]
  · rw [harts]
    have hlen : (s.reg.Repositories.getD i default).Artefacts.length
        = (updAt (s.reg.Repositories.getD i default).Artefacts j
            (fun a => { a with Tags := RemoveElement a.Tags name.Tag })).length := by
      rw [updAt_length]
    rw [hlen, getD_append_length]
  · rw [harts]
    rw [getD_append_left _ _ j (by rw [updAt_length]; exact hj)]
    rw [updAt_getD_self _ _ _ hj]
    rfl
  · intro k hk hkj
    rw [harts]
    rw [getD_append_left _ _ k (by rw [updAt_length]; exact hk)]
    rw [updAt_getD_ne _ _ _ _ (fun he => hkj he.symm)]
  · intro k hk htagk
    rw [harts] at hk htagk
    rw [List.length_append, updAt_length] at hk
    by_cases hkn : k = (s.reg.Repositories.getD i default).Artefacts.length
    · exact hkn
    · exfalso
      have hklt : k < (s.reg.Repositories.getD i default).Artefacts.length := by
        simp only [List.length_cons, List.length_nil] at hk
        omega
      rw [getD_append_left _ _ k (by rw [updAt_length]; exact hklt)] at htagk
      by_cases hkj : k = j
      · subst hkj
        rw [updAt_getD_self _ _ _ hj] at htagk
        exact removeElement_not_mem _ _ htagk
      · rw [updAt_getD_ne _ _ _ _ (fun he => hkj he.symm)] at htagk
        exact huniq k hklt hkj htagk

/-- Target repository `A/B` whose artefact holds the target tag `v1` plus
another tag. -/
def c7reg : FileRegistry := ⟨[⟨"A/B", [⟨"idOld", "t", "fOld", ["v1", "keep"], "1k", "c"⟩]⟩]⟩

def c7state : RegState := ⟨c7reg, c7reg, []⟩

def c7name : ArtieName := ⟨"b", "v1", "A/B"⟩

def c7seal : Seal := ⟨"idNew", "t", "2k", "c2"⟩

/-- Witness for C7 at the concrete store: Add steals `v1` from the old holder
(which keeps `keep` and stays), and the new artefact alone carries `v1`. -/
theorem c7_add_steals_tag_witness :
    ∃ s', AddOp c7state "f2.zip" c7name c7seal = Except.ok s' ∧
      ((s'.reg.Repositories.getD 0 default).Artefacts.length
        = (c7state.reg.Repositories.getD 0 default).Artefacts.length + 1) ∧
      (((s'.reg.Repositories.getD 0 default).Artefacts.getD
          (c7state.reg.Repositories.getD 0 default).Artefacts.length default).Tags
        = [c7name.Tag]) ∧
      (((s'.reg.Repositories.getD 0 default).Artefacts.getD
          (c7state.reg.Repositories.getD 0 default).Artefacts.length default).Id
        = c7seal.artefactId) ∧
      ((s'.reg.Repositories.getD 0 default).Artefacts.getD 0 default
        = { artefactAt c7state.reg (0, 0) with
            Tags := RemoveElement (artefactAt c7state.reg (0, 0)).Tags c7name.Tag }) ∧
      (∀ k, k < (c7state.reg.Repositories.getD 0 default).Artefacts.length → k ≠ 0 →
        (s'.reg.Repositories.getD 0 default).Artefacts.getD k default
          = (c7state.reg.Repositories.getD 0 default).Artefacts.getD k default) ∧
      (∀ k, k < (s'.reg.Repositories.getD 0 default).Artefacts.length →
        c7name.Tag ∈ ((s'.reg.Repositories.getD 0 default).Artefacts.getD k default).Tags →
        k = (c7state.reg.Repositories.getD 0 default).Artefacts.length) :=
  c7_add_steals_tag c7state "f2.zip" c7name c7seal 0 0 (by decide) (by decide) (by decide)
    (by decide) (by decide) (fun k hk hkj => absurd (by simp [c7state, c7reg] at hk; omega) hkj)

theorem set_append_length {α : Type} :
    ∀ (l : List α) (x y : α), (l ++ [x]).set l.length y = l ++ [y]
  | [], _, _ => rfl
  | z :: zs, x, y => by
    show z :: (zs ++ [x]).set zs.length y = z :: (zs ++ [y])
    rw [set_append_length zs x y]

theorem invariant_updateTagsAt_shrink {r : FileRegistry} (loc : Nat × Nat)
    (g : List String → List String) (hg : ∀ ts, ∀ t ∈ g ts, t ∈ ts)
    (hinv : Invariant r) : Invariant (updateTagsAt r loc g) := by
  intro repo hrepo
  have hrepo' : repo ∈ updAt r.Repositories loc.1 (fun rp => ⟨rp.Repository,
      updAt rp.Artefacts loc.2 (fun a => { a with Tags := g a.Tags })⟩) := hrepo
  by_cases hi : loc.1 < r.Repositories.length
  · rcases mem_updAt hrepo' with hmem | heq
    · exact hinv repo hmem
    · have hmemD : r.Repositories.getD loc.1 default ∈ r.Repositories := by
        rw [List.getD_eq_getElem _ _ hi]
        exact List.getElem_mem hi
      have hpw : (r.Repositories.getD loc.1 default).Artefacts.Pairwise TagDisjoint :=
        hinv _ hmemD
      rw [heq]
      exact pairwise_updAt_shrink _ loc.2 g hg hpw
  · rw [updAt_out_of_range _ _ _ (by omega)] at hrepo'
    exact hinv repo hrepo'

theorem invariant_unTagOp {s : RegState} {name : ArtieName} {tag : String} {s' : RegState}
    (h : unTagOp s name tag = Except.ok s') (hinv : Invariant s.reg) : Invariant s'.reg := by
  rw [unTagOp] at h
  cases hres : getArtefactLoc s.reg name with
  | error e =>
    rw [hres] at h
    exact absurd h (by simp)
  | ok o =>
    rw [hres] at h
    cases o with
    | none =>
      have hss : s = s' := by
        have := Except.ok.inj h
        exact this
      rw [← hss]
      exact hinv
    | some loc =>
      have hss : ({ s with
          reg := (updateTagsAt s.reg loc (fun ts => RemoveElement ts tag)) } : RegState)
          = s' := Except.ok.inj h
      rw [← hss]
      exact invariant_updateTagsAt_shrink loc _
        (fun ts t ht => mem_of_mem_removeElement ht) hinv

theorem mem_removeRepoByName {repo : repository} {l : List repository} {name : ArtieName}
    (h : repo ∈ removeRepoByName l name) : repo ∈ l := by
  rw [removeRepoByName] at h
  cases hfi : l.findIdx? (fun rp => rp.Repository == name.FullyQualifiedName) with
  | none =>
    rw [hfi] at h
    exact h
  | some i =>
    rw [hfi] at h
    have hi : i < l.length := ((findIdx?_some_iff _ l i).mp hfi).1
    have hsub := (List.dropLast_sublist _).mem h
    rcases List.mem_or_eq_of_mem_set hsub with hmem | heq
    · exact hmem
    · have hlen : 0 < l.length := by omega
      rw [heq, List.getD_eq_getElem _ _ (by omega)]
      exact List.getElem_mem (by omega)

theorem pairwise_removeArtefactById {arts : List artefact} {id : String}
    (h : arts.Pairwise TagDisjoint) :
    (removeArtefactById arts id).Pairwise TagDisjoint := by
  rw [removeArtefactById]
  cases hfi : arts.findIdx? (fun x => strContains x.Id id) with
  | none => exact h
  | some i =>
    have hi : i < arts.length := ((findIdx?_some_iff _ arts i).mp hfi).1
    have hperm := set_last_dropLast_perm arts i hi
    have herase : (arts.eraseIdx i).Pairwise TagDisjoint :=
      h.sublist (List.eraseIdx_sublist arts i)
    exact herase.perm hperm.symm (fun hab => tagDisjoint_symm hab)

theorem findRepositoryIdx_lt {r : FileRegistry} {name : ArtieName} {k : Nat}
    (h : findRepositoryIdx r name = some k) : k < r.Repositories.length := by
  rw [findRepositoryIdx] at h
  cases hfq : r.Repositories.findIdx? (fun repo => repo.Repository == name.FullyQualifiedName) with
  | some m =>
    rw [hfq] at h
    have hmk : m = k := Option.some.inj h
    rw [← hmk]
    exact ((findIdx?_some_iff _ _ m).mp hfq).1
  | none =>
    rw [hfq] at h
    exact ((findIdx?_some_iff _ _ k).mp h).1

theorem invariant_removeOne {s : RegState} {name : ArtieName} {s' : RegState}
    (h : removeOne s name = Except.ok s') (hinv : Invariant s.reg) : Invariant s'.reg := by
  rw [removeOne] at h
  split at h
  · exact absurd h (by simp)
  · rw [← Except.ok.inj h]
    exact hinv
  · rename_i loc heqres
    split at h
    · exact absurd h (by simp)
    · rename_i s1 hunT
      have hinv1 : Invariant s1.reg := invariant_unTagOp hunT hinv
      simp only [] at h
      split at h
      · split at h
        · split at h
          · rw [← Except.ok.inj h]
            intro repo hrepo
            exact hinv1 repo (mem_removeRepoByName hrepo)
          · rw [← Except.ok.inj h]
            intro repo hrepo
            exact hinv1 repo (mem_removeRepoByName hrepo)
        · rw [← Except.ok.inj h]
          exact hinv1
      · split at h
        · exact absurd h (by simp)
        · rename_i rIx hfr
          rw [← Except.ok.inj h]
          intro repo hrepo
          have hrepo2 : repo ∈ updAt s1.reg.Repositories rIx (fun rp =>
              ⟨rp.Repository, removeArtefactById rp.Artefacts name.Name⟩) := hrepo
          rcases mem_updAt hrepo2 with hmem | heq
          · exact hinv1 repo hmem
          · have hk : rIx < s1.reg.Repositories.length := findRepositoryIdx_lt hfr
            have hmemD : s1.reg.Repositories.getD rIx default ∈ s1.reg.Repositories := by
              rw [List.getD_eq_getElem _ _ hk]
              exact List.getElem_mem hk
            rw [heq]
            exact pairwise_removeArtefactById (hinv1 _ hmemD)

theorem invariant_removeOp :
    ∀ (names : List ArtieName) (s sFin : RegState),
      RemoveOp s names = Except.ok sFin → Invariant s.reg → Invariant sFin.reg
  | [], s, sFin, h, hinv => by
    rw [show RemoveOp s [] = Except.ok s from rfl] at h
    rw [← Except.ok.inj h]
    exact hinv
  | n :: ns, s, sFin, h, hinv => by
    rw [show RemoveOp s (n :: ns)
      = (removeOne s n >>= fun s1 => RemoveOp s1 ns) from rfl] at h
    cases hr : removeOne s n with
    | error e =>
      rw [hr] at h
      exact absurd h (by simp [Bind.bind, Except.bind])
    | ok s1 =>
      rw [hr] at h
      have hbind : (Except.ok s1 >>= fun s2 => RemoveOp s2 ns) = RemoveOp s1 ns := rfl
      rw [hbind] at h
      exact invariant_removeOp ns s1 sFin h (invariant_removeOne hr hinv)

theorem updAt_append_length {α : Type} [Inhabited α] (l : List α) (x : α) (f : α → α) :
    updAt (l ++ [x]) l.length f = l ++ [f x] := by
  rw [updAt, getD_append_length, set_append_length]

theorem invariant_addOp {s : RegState} {filename : String} {name : ArtieName}
    {sealArg : Seal} {sFin : RegState}
    (h : AddOp s filename name sealArg = Except.ok sFin)
    (hnf : NoFrag s.reg name) (hinv : Invariant s.reg) : Invariant sFin.reg := by
  rw [AddOp] at h
  split at h
  · exact absurd h (by simp)
  · have hres := getArtefactLoc_noFrag hnf
    rw [fqnTagSearch_spec] at hres
    cases hfq : s.reg.Repositories.findIdx?
        (fun repo => repo.Repository == name.FullyQualifiedName) with
    | none =>
      rw [hfq] at hres
      simp only [Option.none_bind] at hres
      have hunT : unTagOp s name name.Tag = Except.ok s := by
        rw [unTagOp, hres]
      rw [hunT] at h
      simp only [] at h
      have hfr : findRepositoryIdx s.reg name = none := by
        rw [findRepositoryIdx, hfq]
        refine List.findIdx?_eq_none_iff.mpr (fun repo hrepo => ?_)
        refine List.any_eq_false.mpr (fun a ha => ?_)
        rw [hnf repo hrepo a ha]
        simp
      rw [hfr] at h
      simp only [] at h
      rw [← Except.ok.inj h]
      intro repo hrepo
      have hrepo2 : repo ∈ updAt (s.reg.Repositories
          ++ [⟨name.FullyQualifiedName, []⟩]) s.reg.Repositories.length
          (fun rp => ⟨rp.Repository, rp.Artefacts ++
            [⟨sealArg.artefactId, sealArg.typ,
              trimSuffix (filepathBase filename) (pathExt (filepathBase filename)),
              [name.Tag], sealArg.size, sealArg.time⟩]⟩) := hrepo
      rw [updAt_append_length] at hrepo2
      rcases List.mem_append.mp hrepo2 with hmem | hnew
      · exact hinv repo hmem
      · have hrepoEq : repo = ⟨name.FullyQualifiedName,
            [⟨sealArg.artefactId, sealArg.typ,
              trimSuffix (filepathBase filename) (pathExt (filepathBase filename)),
              [name.Tag], sealArg.size, sealArg.time⟩]⟩ := by
          simpa using hnew
        rw [hrepoEq]
        show List.Pairwise TagDisjoint [⟨sealArg.artefactId, sealArg.typ,
          trimSuffix (filepathBase filename) (pathExt (filepathBase filename)),
          [name.Tag], sealArg.size, sealArg.time⟩]
        exact List.pairwise_singleton _ _
    | some k =>
      rw [hfq] at hres
      simp only [Option.some_bind] at hres
      cases hft : findTagIdx (s.reg.Repositories.getD k default).Artefacts name.Tag with
      | none =>
        rw [hft] at hres
        simp only [Option.map_none'] at hres
        have hunT : unTagOp s name name.Tag = Except.ok s := by
          rw [unTagOp, hres]
        rw [hunT] at h
        simp only [] at h
        have hfr : findRepositoryIdx s.reg name = some k := by
          rw [findRepositoryIdx, hfq]
        rw [hfr] at h
        simp only [] at h
        rw [← Except.ok.inj h]
        intro repo hrepo
        have hkb : k < s.reg.Repositories.length := ((findIdx?_some_iff _ _ k).mp hfq).1
        have hrepo2 : repo ∈ updAt s.reg.Repositories k
            (fun rp => ⟨rp.Repository, rp.Artefacts ++
              [⟨sealArg.artefactId, sealArg.typ,
                trimSuffix (filepathBase filename) (pathExt (filepathBase filename)),
                [name.Tag], sealArg.size, sealArg.time⟩]⟩) := hrepo
        rcases mem_updAt hrepo2 with hmem | heq
        · exact hinv repo hmem
        · have hmemD : s.reg.Repositories.getD k default ∈ s.reg.Repositories := by
            rw [List.getD_eq_getElem _ _ hkb]
            exact List.getElem_mem hkb
          have hpw : (s.reg.Repositories.getD k default).Artefacts.Pairwise TagDisjoint :=
            hinv _ hmemD
          rw [heq]
          show List.Pairwise TagDisjoint ((s.reg.Repositories.getD k default).Artefacts ++
            [⟨sealArg.artefactId, sealArg.typ,
              trimSuffix (filepathBase filename) (pathExt (filepathBase filename)),
              [name.Tag], sealArg.size, sealArg.time⟩])
          refine List.pairwise_append.mpr ⟨hpw, List.pairwise_singleton _ _, ?_⟩
          intro a ha b hb
          have hbEq : b = ⟨sealArg.artefactId, sealArg.typ,
              trimSuffix (filepathBase filename) (pathExt (filepathBase filename)),
              [name.Tag], sealArg.size, sealArg.time⟩ := by
            simpa using hb
          rw [hbEq]
          intro t ht htb
          have htEq : t = name.Tag := by simpa using htb
          rw [htEq] at ht
          have hHas : a.HasTag name.Tag = false := List.findIdx?_eq_none_iff.mp hft a ha
          have hHasT : a.HasTag name.Tag = true := List.elem_eq_true_of_mem ht
          exact absurd (hHasT.symm.trans hHas) (by simp)
      | some jj =>
        rw [hft] at hres
        simp only [Option.map_some'] at hres
        rw [Nat.zero_add] at hres
        have hunT : unTagOp s name name.Tag = Except.ok ({ s with
            reg := (updateTagsAt s.reg (k, jj) (fun ts => RemoveElement ts name.Tag)) }) := by
          rw [unTagOp, hres]
        rw [hunT] at h
        simp only [] at h
        have hfr : findRepositoryIdx
            (updateTagsAt s.reg (k, jj) (fun ts => RemoveElement ts name.Tag)) name
            = some k := by
          rw [findRepositoryIdx, findIdx?_fqn_updateTagsAt, hfq]
        rw [hfr] at h
        simp only [] at h
        have hkb : k < s.reg.Repositories.length := ((findIdx?_some_iff _ _ k).mp hfq).1
        obtain ⟨hjb, hjtag, -⟩ := (findIdx?_some_iff _ _ jj).mp hft
        have hinv1 : Invariant (updateTagsAt s.reg (k, jj)
            (fun ts => RemoveElement ts name.Tag)) :=
          invariant_updateTagsAt_shrink (k, jj) _
            (fun ts t htm => mem_of_mem_removeElement htm) hinv
        rw [← Except.ok.inj h]
        intro repo hrepo
        have hrepo2 : repo ∈ updAt (updateTagsAt s.reg (k, jj)
            (fun ts => RemoveElement ts name.Tag)).Repositories k
            (fun rp => ⟨rp.Repository, rp.Artefacts ++
              [⟨sealArg.artefactId, sealArg.typ,
                trimSuffix (filepathBase filename) (pathExt (filepathBase filename)),
                [name.Tag], sealArg.size, sealArg.time⟩]⟩) := hrepo
        rcases mem_updAt hrepo2 with hmem | heq
        · exact hinv1 repo hmem
        · have hR1arts : ((updateTagsAt s.reg (k, jj)
              (fun ts => RemoveElement ts name.Tag)).Repositories.getD k default).Artefacts
              = updAt (s.reg.Repositories.getD k default).Artefacts jj
                (fun a => { a with Tags := RemoveElement a.Tags name.Tag }) := by
            show ((updAt s.reg.Repositories k (fun rp => ⟨rp.Repository,
              updAt rp.Artefacts jj (fun a => { a with
                Tags := RemoveElement a.Tags name.Tag })⟩)).getD k default).Artefacts = _
            rw [updAt_getD_self _ _ _ hkb]
          have hmemD : s.reg.Repositories.getD k default ∈ s.reg.Repositories := by
            rw [List.getD_eq_getElem _ _ hkb]
            exact List.getElem_mem hkb
          have hpw : (s.reg.Repositories.getD k default).Artefacts.Pairwise TagDisjoint :=
            hinv _ hmemD
          have htagmem : name.Tag
              ∈ ((s.reg.Repositories.getD k default).Artefacts.getD jj default).Tags := by
            have hjt : ((s.reg.Repositories.getD k default).Artefacts.getD
                jj default).HasTag name.Tag = true := hjtag
            simpa [artefact.HasTag] using hjt
          have hstrip := no_tag_after_strip (s.reg.Repositories.getD k default).Artefacts
            jj name.Tag hjb htagmem hpw
          rw [heq]
          show List.Pairwise TagDisjoint
            (((updateTagsAt s.reg (k, jj)
              (fun ts => RemoveElement ts name.Tag)).Repositories.getD k default).Artefacts ++
            [⟨sealArg.artefactId, sealArg.typ,
              trimSuffix (filepathBase filename) (pathExt (filepathBase filename)),
              [name.Tag], sealArg.size, sealArg.time⟩])
          rw [hR1arts]
          refine List.pairwise_append.mpr
            ⟨pairwise_updAt_shrink _ jj _ (fun ts t htm => mem_of_mem_removeElement htm) hpw,
              List.pairwise_singleton _ _, ?_⟩
          intro a ha b hb
          have hbEq : b = ⟨sealArg.artefactId, sealArg.typ,
              trimSuffix (filepathBase filename) (pathExt (filepathBase filename)),
              [name.Tag], sealArg.size, sealArg.time⟩ := by
            simpa using hb
          rw [hbEq]
          intro t ht htb
          have htEq : t = name.Tag := by simpa using htb
          rw [htEq] at ht
          exact hstrip a ha ht

/-- C1 (amended): Add — when the reference's bare name fragment is not a
substring of any stored content identifier — unTag and Remove each preserve
the per-repository tag-uniqueness invariant; a same-repository Tag does not
preserve it, as the reachable counterexample trace shows. -/
theorem c1_amended :
    (∀ (s : RegState) (filename : String) (name : ArtieName) (sealArg : Seal)
        (sFin : RegState),
      NoFrag s.reg name → Invariant s.reg →
      AddOp s filename name sealArg = Except.ok sFin → Invariant sFin.reg) ∧
    (∀ (s : RegState) (name : ArtieName) (tag : String) (sFin : RegState),
      Invariant s.reg → unTagOp s name tag = Except.ok sFin → Invariant sFin.reg) ∧
    (∀ (s : RegState) (names : List ArtieName) (sFin : RegState),
      Invariant s.reg → RemoveOp s names = Except.ok sFin → Invariant sFin.reg) :=
  ⟨fun _ _ _ _ _ hnf hinv h => invariant_addOp h hnf hinv,
    fun _ _ _ _ hinv h => invariant_unTagOp h hinv,
    fun _ names _ hinv h => invariant_removeOp names _ _ h hinv⟩

/-- The registry left by untagging `v1` in `c7reg`. -/
def c1wRegAfter : FileRegistry :=
  ⟨[⟨"A/B", [⟨"idOld", "t", "fOld", ["keep"], "1k", "c"⟩]⟩]⟩

/-- Witness for C1 (amended): the concrete unTag keeps the invariant. -/
theorem c1_amended_witness : Invariant c1wRegAfter :=
  c1_amended.2.1 c7state c7name "v1" ⟨c1wRegAfter, c7reg, []⟩ (by decide) (by decide)
